import Mathlib

/-!
Shallow embedding of the PII-masker pipeline (content script, offscreen
document and hybrid detector).

Modelling conventions:
* JS strings are `List Char`; JS string indices are `Nat`.
* JS `undefined` / `null` on offsets are `Option Nat`.
* Classifier scores and confidence values are `ℚ` (the code only compares
  them and takes min / max, so no floating-point rounding is involved).
* The JS object `piiMappings` is an association list updated in place
  (`setEntry`), which preserves JS insertion-order semantics for string keys.
* `Array.prototype.sort` is stable (ES2019), modelled by `List.insertionSort`
  with the corresponding non-strict comparator.
-/

namespace PII

/-- JS `String.prototype.substring(a, b)`: both arguments are clamped to the
string length and swapped when `a > b`. -/
def substringJS (s : List Char) (a b : Nat) : List Char :=
  let a' := min a s.length
  let b' := min b s.length
  (s.drop (min a' b')).take (max a' b' - min a' b')

/-- Whitespace characters recognised by JS `trim` (the ones relevant here). -/
def isWSChar (c : Char) : Bool :=
  c == ' ' || c == '\t' || c == '\n' || c == '\r' || c == '\x0b' || c == '\x0c'

/-- JS `String.prototype.trim`. -/
def trimJS (s : List Char) : List Char :=
  ((s.dropWhile isWSChar).reverse.dropWhile isWSChar).reverse

/-- JS `String.prototype.toLowerCase` on the ASCII texts handled here. -/
def toLowerJS (s : List Char) : List Char := s.map Char.toLower

/-- JS `String.prototype.toUpperCase` on the ASCII texts handled here. -/
def toUpperJS (s : List Char) : List Char := s.map Char.toUpper

/-- JS `String.prototype.indexOf(needle, from)` (`none` for `-1`). -/
def indexOfFrom (s needle : List Char) (start : Nat) : Option Nat :=
  if needle = [] then some (min start s.length)
  else (List.range (s.length + 1)).find? fun i =>
    decide (start ≤ i) && needle.isPrefixOf (s.drop i)

/-- A detected PII item as pushed by `detectPII` / consumed by
`maskDetectedPII` in `background.js`:
`\x7b type, value, index, source, confidence \x7d`. -/
structure Item where
  type : String
  value : List Char
  index : Nat
  source : String
  confidence : ℚ
  deriving DecidableEq, Repr

/-- The `piiMappings` object: placeholder text to original value, in JS
property insertion order. -/
abbrev Store := List (List Char × List Char)

/-- JS property assignment `m[k] = v`: overwrites in place if the key is
present, otherwise appends. -/
def setEntry (m : Store) (k v : List Char) : Store :=
  match m with
  | [] => [(k, v)]
  | (k', v') :: rest => if k' = k then (k, v) :: rest else (k', v') :: setEntry rest k v

/-- The `labelMap` object inside `generateMask` (background.js). -/
def labelMap (t : String) : Option String :=
  if t = "email" then some "REDACTED_EMAIL"
  else if t = "phone" then some "REDACTED_PHONE"
  else if t = "ssn" then some "REDACTED_SSN"
  else if t = "creditCard" then some "REDACTED_CREDIT_CARD"
  else if t = "zipCode" then some "REDACTED_ZIP"
  else if t = "ipv4" then some "REDACTED_IP"
  else if t = "dateOfBirth" then some "REDACTED_DOB"
  else if t = "passport" then some "REDACTED_PASSPORT"
  else if t = "driversLicense" then some "REDACTED_LICENSE"
  else if t = "bankAccount" then some "REDACTED_ACCOUNT"
  else if t = "medicalRecord" then some "REDACTED_MEDICAL_ID"
  else if t = "vin" then some "REDACTED_VIN"
  else if t = "policyNumber" then some "REDACTED_POLICY"
  else if t = "routingNumber" then some "REDACTED_ROUTING"
  else if t = "person" then some "REDACTED_NAME"
  else if t = "organization" then some "REDACTED_ORGANIZATION"
  else if t = "location" then some "REDACTED_LOCATION"
  else if t = "titleName" then some "REDACTED_NAME"
  else none

/-- `generateMask(type)`: the label from `labelMap`, falling back to
`REDACTED_` followed by the uppercased type, wrapped in brackets. -/
def generateMask (t : String) : List Char :=
  let label : List Char :=
    match labelMap t with
    | some l => l.data
    | none => "REDACTED_".data ++ toUpperJS t.data
  '[' :: label ++ [']']

/-- The character-overlap test used by the deduplication loop of
`maskDetectedPII`: `!(itemEnd <= existing.index || item.index >= existingEnd)`. -/
def overlapsP (item existing : Item) : Prop :=
  ¬(item.index + item.value.length ≤ existing.index ∨
    existing.index + existing.value.length ≤ item.index)

instance (a b : Item) : Decidable (overlapsP a b) := by
  unfold overlapsP; infer_instance

/-- The greedy deduplication loop of `maskDetectedPII`: walk the
start-sorted items, keeping an item iff it overlaps no already-kept item. -/
def dedupScan (kept : List Item) : List Item → List Item
  | [] => kept
  | x :: xs =>
    if kept.any fun e => decide (overlapsP x e) then dedupScan kept xs
    else dedupScan (kept ++ [x]) xs

/-- State threaded through the replacement loop of `maskDetectedPII`:
the evolving text, the mapping store, and (ghost, for specification) the
items that were actually substituted. -/
structure MaskSt where
  text : List Char
  store : Store
  applied : List Item
  deriving Repr

/-- One iteration of the replacement loop of `maskDetectedPII`: record the
mapping (before the verification check, as the source does), verify that the
current text still holds the recorded value at the item's range, and if so
substitute the placeholder. -/
def maskStep (st : MaskSt) (item : Item) : MaskSt :=
  let mask := generateMask item.type
  let store := setEntry st.store mask item.value
  let actual := substringJS st.text item.index (item.index + item.value.length)
  if actual = item.value then
    { text := st.text.take item.index ++ mask ++ st.text.drop (item.index + item.value.length),
      store := store,
      applied := st.applied ++ [item] }
  else
    { st with store := store }

/-- Ascending comparator `(a, b) => a.index - b.index` as a stable order. -/
def leIdx (a b : Item) : Prop := a.index ≤ b.index

instance : DecidableRel leIdx := fun a b => by unfold leIdx; infer_instance

/-- Descending comparator `(a, b) => b.index - a.index` as a stable order. -/
def geIdx (a b : Item) : Prop := b.index ≤ a.index

instance : DecidableRel geIdx := fun a b => by unfold geIdx; infer_instance

/-- The sort-then-deduplicate phase of `maskDetectedPII`: stable sort by
start ascending, then the greedy overlap scan. -/
def dedupItems (items : List Item) : List Item :=
  dedupScan [] (List.insertionSort leIdx items)

/-- `maskDetectedPII(text, detectedItems)` from background.js, with the
mutable `piiMappings` store threaded explicitly.  Returns the full final
loop state; the JS function itself returns only the masked text. -/
def maskDetectedPIISt (text : List Char) (items : List Item) (store : Store) : MaskSt :=
  if text = [] ∨ items = [] then { text := text, store := store, applied := [] }
  else
    let uniqueItems := dedupItems items
    let sortedItems := List.insertionSort geIdx uniqueItems
    sortedItems.foldl maskStep { text := text, store := store, applied := [] }

/-- The value actually returned by `maskDetectedPII` (just the masked text),
paired with the store it mutated. -/
def maskDetectedPII (text : List Char) (items : List Item) (store : Store) :
    List Char × Store :=
  let st := maskDetectedPIISt text items store
  (st.text, st.store)

/-- The spans actually substituted by a `maskDetectedPII` call (a
specification-level observer; the JS function does not return this). -/
def appliedSpans (text : List Char) (items : List Item) (store : Store) : List Item :=
  (maskDetectedPIISt text items store).applied

/-- Modelled from the spec: the repository has no un-masking code (restore
is a roadmap item), so reversal is taken from the spec's words — substituting
each MappingStore entry's original value back into its placeholder
occurrences.  `replaceAll` scans left to right; replacement text is not
rescanned (JS `String.prototype.replaceAll` semantics). -/
def replaceAll (k v : List Char) : List Char → List Char
  | [] => []
  | c :: rest =>
    if h : k ≠ [] ∧ k.isPrefixOf (c :: rest) then
      v ++ replaceAll k v ((c :: rest).drop k.length)
    else
      c :: replaceAll k v rest
  termination_by s => s.length
  decreasing_by
    · simp only [List.length_drop, List.length_cons]
      have hk : 0 < k.length := List.length_pos.mpr h.1
      omega
    · simp

/-- Modelled from the spec: substitute every mapping entry's original value
back into its placeholder occurrences in the masked text. -/
def unmaskAll (store : Store) (s : List Char) : List Char :=
  store.foldl (fun acc e => replaceAll e.1 e.2 acc) s

end PII

namespace PII

/-! ## Regular expressions

The pattern table `PII_PATTERNS_ORDERED` is embedded as an explicit regex
AST.  Character classes are lists of inclusive ranges.  Word-boundary
assertions (`\b`) are relaxed to match the empty string, which only enlarges
the language of every pattern: sound both for the universal span properties
(proved over a superset of real matches) and for the no-match results
(absence of relaxed matches implies absence of real ones).  Concrete
positive matches exhibited below also hold for the real patterns. -/

/-- A character class: a list of inclusive ranges. -/
abbrev CRanges := List (Char × Char)

/-- Membership of a character in a class. -/
def memRanges (rs : CRanges) (c : Char) : Bool :=
  rs.any fun r => decide (r.1 ≤ c) && decide (c ≤ r.2)

inductive Regex where
  | void
  | eps
  | cls (rs : CRanges)
  | cat (r1 r2 : Regex)
  | alt (r1 r2 : Regex)
  | star (r : Regex)
  | wb
  deriving Repr

/-- The matching relation of the AST. -/
inductive Matches : Regex → List Char → Prop where
  | eps : Matches .eps []
  | wb : Matches .wb []
  | cls (rs : CRanges) (c : Char) : memRanges rs c = true → Matches (.cls rs) [c]
  | cat {r1 r2 s1 s2} : Matches r1 s1 → Matches r2 s2 → Matches (.cat r1 r2) (s1 ++ s2)
  | altL {r1 r2 s} : Matches r1 s → Matches (.alt r1 r2) s
  | altR {r1 r2 s} : Matches r2 s → Matches (.alt r1 r2) s
  | starNil {r} : Matches (.star r) []
  | starCons {r s1 s2} : Matches r s1 → Matches (.star r) s2 → Matches (.star r) (s1 ++ s2)

/-- Single literal character. -/
def chr (c : Char) : Regex := .cls [(c, c)]

/-- Single literal character under the `i` flag. -/
def chri (c : Char) : Regex := .cls [(c.toLower, c.toLower), (c.toUpper, c.toUpper)]

/-- Literal string. -/
def strR (s : String) : Regex := s.data.foldr (fun c acc => .cat (chr c) acc) .eps

/-- Literal string under the `i` flag. -/
def strRi (s : String) : Regex := s.data.foldr (fun c acc => .cat (chri c) acc) .eps

/-- n-ary alternation. -/
def altsR : List Regex → Regex
  | [] => .void
  | [r] => r
  | r :: rest => .alt r (altsR rest)

/-- Sequence of regexes. -/
def seqR (l : List Regex) : Regex := l.foldr .cat .eps

/-- `r?`. -/
def optR (r : Regex) : Regex := .alt .eps r

/-- `r+`. -/
def plusR (r : Regex) : Regex := .cat r (.star r)

/-- Exactly `n` copies of `r`. -/
def repN (r : Regex) : Nat → Regex
  | 0 => .eps
  | n + 1 => .cat r (repN r n)

/-- `r{m,n}` for `m ≤ n`. -/
def repR (r : Regex) (m n : Nat) : Regex := .cat (repN r m) (repN (optR r) (n - m))

/-- `r{m,}`. -/
def repAtLeast (r : Regex) (m : Nat) : Regex := .cat (repN r m) (.star r)

/-- JS `\d`. -/
def digitCls : CRanges := [('0', '9')]

/-- JS `\s` (the portion relevant to the ASCII texts in scope, plus NBSP). -/
def spaceCls : CRanges :=
  [(' ', ' '), ('\t', '\t'), ('\n', '\n'), ('\r', '\r'),
   ('\x0b', '\x0b'), ('\x0c', '\x0c'), (' ', ' ')]

/-! ### Syntactic analyses used to refute matches -/

/-- Every nonempty range of `rs` is contained in some range of `target`. -/
def rangesSubB (rs target : CRanges) : Bool :=
  rs.all fun r =>
    decide (r.2 < r.1) || target.any fun t => decide (t.1 ≤ r.1) && decide (r.2 ≤ t.2)

/-- `requiresFrom target r = true` means every string matched by `r`
contains a character from `target`. -/
def requiresFrom (target : CRanges) : Regex → Bool
  | .void => true
  | .eps => false
  | .wb => false
  | .cls rs => rangesSubB rs target
  | .cat r1 r2 => requiresFrom target r1 || requiresFrom target r2
  | .alt r1 r2 => requiresFrom target r1 && requiresFrom target r2
  | .star _ => false

/-- `allWithin allowed r = true` means every character of every string
matched by `r` lies in `allowed`. -/
def allWithin (allowed : CRanges) : Regex → Bool
  | .void => true
  | .eps => true
  | .wb => true
  | .cls rs => rangesSubB rs allowed
  | .cat r1 r2 => allWithin allowed r1 && allWithin allowed r2
  | .alt r1 r2 => allWithin allowed r1 && allWithin allowed r2
  | .star r => allWithin allowed r

/-- A lower bound on the length of any match. -/
def minLen : Regex → Nat
  | .void => 1000000
  | .eps => 0
  | .wb => 0
  | .cls _ => 1
  | .cat r1 r2 => minLen r1 + minLen r2
  | .alt r1 r2 => min (minLen r1) (minLen r2)
  | .star _ => 0

theorem memRanges_of_sub {rs target : CRanges} {c : Char}
    (hsub : rangesSubB rs target = true) (hc : memRanges rs c = true) :
    memRanges target c = true := by
  simp only [memRanges, List.any_eq_true, Bool.and_eq_true, decide_eq_true_eq] at hc ⊢
  obtain ⟨r, hr, h1, h2⟩ := hc
  simp only [rangesSubB, List.all_eq_true, Bool.or_eq_true, List.any_eq_true,
    Bool.and_eq_true, decide_eq_true_eq] at hsub
  rcases hsub r hr with hlt | ⟨t, ht, ht1, ht2⟩
  · exact absurd (le_trans h1 h2) (not_le.mpr hlt)
  · exact ⟨t, ht, le_trans ht1 h1, le_trans h2 ht2⟩

theorem requiresFrom_sound {target : CRanges} {r : Regex} {s : List Char}
    (hm : Matches r s) (hreq : requiresFrom target r = true) :
    ∃ c ∈ s, memRanges target c = true := by
  induction hm with
  | eps => simp [requiresFrom] at hreq
  | wb => simp [requiresFrom] at hreq
  | cls rs c hc =>
    exact ⟨c, by simp, memRanges_of_sub hreq hc⟩
  | cat h1 h2 ih1 ih2 =>
    simp only [requiresFrom, Bool.or_eq_true] at hreq
    rcases hreq with hq | hq
    · obtain ⟨c, hc, hmem⟩ := ih1 hq
      exact ⟨c, List.mem_append_left _ hc, hmem⟩
    · obtain ⟨c, hc, hmem⟩ := ih2 hq
      exact ⟨c, List.mem_append_right _ hc, hmem⟩
  | altL h ih =>
    simp only [requiresFrom, Bool.and_eq_true] at hreq
    exact ih hreq.1
  | altR h ih =>
    simp only [requiresFrom, Bool.and_eq_true] at hreq
    exact ih hreq.2
  | starNil => simp [requiresFrom] at hreq
  | starCons h1 h2 ih1 ih2 => simp [requiresFrom] at hreq

theorem allWithin_sound {allowed : CRanges} {r : Regex} {s : List Char}
    (hm : Matches r s) (hall : allWithin allowed r = true) :
    ∀ c ∈ s, memRanges allowed c = true := by
  induction hm with
  | eps => simp
  | wb => simp
  | cls rs c hc =>
    intro c' hc'
    simp only [List.mem_singleton] at hc'
    subst hc'
    exact memRanges_of_sub hall hc
  | cat h1 h2 ih1 ih2 =>
    simp only [allWithin, Bool.and_eq_true] at hall
    intro c hc
    rcases List.mem_append.mp hc with h | h
    · exact ih1 hall.1 c h
    · exact ih2 hall.2 c h
  | altL h ih =>
    simp only [allWithin, Bool.and_eq_true] at hall
    exact ih hall.1
  | altR h ih =>
    simp only [allWithin, Bool.and_eq_true] at hall
    exact ih hall.2
  | starNil => simp
  | starCons h1 h2 ih1 ih2 =>
    intro c hc
    rcases List.mem_append.mp hc with h | h
    · exact ih1 hall c h
    · exact ih2 hall c h

theorem minLen_sound {r : Regex} {s : List Char} (hm : Matches r s) :
    minLen r ≤ s.length := by
  induction hm with
  | eps => simp [minLen]
  | wb => simp [minLen]
  | cls rs c hc => simp [minLen]
  | cat h1 h2 ih1 ih2 => simpa [minLen] using Nat.add_le_add ih1 ih2
  | altL h ih => exact le_trans (min_le_left _ _) ih
  | altR h ih => exact le_trans (min_le_right _ _) ih
  | starNil => simp [minLen]
  | starCons h1 h2 ih1 ih2 => simp [minLen]

/-! ### Executable matcher (Brzozowski derivatives), sound w.r.t. `Matches` -/

def nullable : Regex → Bool
  | .void => false
  | .eps => true
  | .wb => true
  | .cls _ => false
  | .cat r1 r2 => nullable r1 && nullable r2
  | .alt r1 r2 => nullable r1 || nullable r2
  | .star _ => true

def deriv (c : Char) : Regex → Regex
  | .void => .void
  | .eps => .void
  | .wb => .void
  | .cls rs => if memRanges rs c then .eps else .void
  | .cat r1 r2 =>
    if nullable r1 then .alt (.cat (deriv c r1) r2) (deriv c r2)
    else .cat (deriv c r1) r2
  | .alt r1 r2 => .alt (deriv c r1) (deriv c r2)
  | .star r => .cat (deriv c r) (.star r)

/-- Executable matching: derivative of the whole string, then nullability. -/
def bmatch (r : Regex) (s : List Char) : Bool :=
  nullable (s.foldl (fun r c => deriv c r) r)

theorem nullable_sound {r : Regex} (h : nullable r = true) : Matches r [] := by
  induction r with
  | void => simp [nullable] at h
  | eps => exact .eps
  | wb => exact .wb
  | cls rs => simp [nullable] at h
  | cat r1 r2 ih1 ih2 =>
    simp only [nullable, Bool.and_eq_true] at h
    exact (List.nil_append ([] : List Char)) ▸ Matches.cat (ih1 h.1) (ih2 h.2)
  | alt r1 r2 ih1 ih2 =>
    simp only [nullable, Bool.or_eq_true] at h
    rcases h with h | h
    · exact .altL (ih1 h)
    · exact .altR (ih2 h)
  | star r ih => exact .starNil

theorem deriv_sound {c : Char} {r : Regex} {s : List Char}
    (h : Matches (deriv c r) s) : Matches r (c :: s) := by
  induction r generalizing s with
  | void => cases h
  | eps => cases h
  | wb => cases h
  | cls rs =>
    simp only [deriv] at h
    by_cases hc : memRanges rs c = true
    · rw [if_pos hc] at h
      cases h
      exact .cls rs c hc
    · rw [if_neg hc] at h
      cases h
  | cat r1 r2 ih1 ih2 =>
    simp only [deriv] at h
    by_cases hn : nullable r1 = true
    · rw [if_pos hn] at h
      cases h with
      | altL h' =>
        cases h' with
        | cat ha hb =>
          rename_i s1 s2
          exact List.cons_append c s1 s2 ▸ Matches.cat (ih1 ha) hb
      | altR h' =>
        exact (List.nil_append (c :: s)) ▸ Matches.cat (nullable_sound hn) (ih2 h')
    · rw [if_neg hn] at h
      cases h with
      | cat ha hb =>
        rename_i s1 s2
        exact List.cons_append c s1 s2 ▸ Matches.cat (ih1 ha) hb
  | alt r1 r2 ih1 ih2 =>
    cases h with
    | altL h' => exact .altL (ih1 h')
    | altR h' => exact .altR (ih2 h')
  | star r ih =>
    cases h with
    | cat ha hb =>
      rename_i s1 s2
      exact List.cons_append c s1 s2 ▸ Matches.starCons (ih ha) hb

theorem bmatch_sound {r : Regex} {s : List Char} (h : bmatch r s = true) :
    Matches r s := by
  induction s generalizing r with
  | nil => exact nullable_sound h
  | cons c cs ih => exact deriv_sound (ih h)

end PII

namespace PII

/-! ## The pattern table `PII_PATTERNS_ORDERED` (background.js) -/

/-- `\d`. -/
def dR : Regex := .cls digitCls

/-- `\s`. -/
def spR : Regex := .cls spaceCls

/-- The class `[-:\s]`. -/
def sepCls : CRanges := ('-', '-') :: (':', ':') :: spaceCls

/-- The class `[-.\s]` of the phone pattern. -/
def phoneSepCls : CRanges := ('-', '-') :: ('.', '.') :: spaceCls

/-- ASCII apostrophe. -/
def apos : Char := Char.ofNat 39

/-- `[A-Z][a-z]+` (capitalised word). -/
def capWordR : Regex := seqR [.cls [('A', 'Z')], plusR (.cls [('a', 'z')])]

/-- `/\b\d{3}-\d{2}-\d{4}\b/g` -/
def ssnR : Regex :=
  seqR [.wb, repN dR 3, chr '-', repN dR 2, chr '-', repN dR 4, .wb]

/-- `/\b(?:4\d{3}|5[1-5]\d{2}|6011|3[47]\d{2})[\s-]?\d{4}[\s-]?\d{4}[\s-]?\d{4}\b/g` -/
def creditCardR : Regex :=
  seqR [.wb,
    altsR [seqR [chr '4', repN dR 3],
           seqR [chr '5', .cls [('1', '5')], repN dR 2],
           strR "6011",
           seqR [chr '3', .cls [('4', '4'), ('7', '7')], repN dR 2]],
    optR (.cls (('-', '-') :: spaceCls)), repN dR 4,
    optR (.cls (('-', '-') :: spaceCls)), repN dR 4,
    optR (.cls (('-', '-') :: spaceCls)), repN dR 4, .wb]

/-- `CVV|CVC|CSC` (case-insensitive). -/
def cvvWordR : Regex := altsR [strRi "CVV", strRi "CVC", strRi "CSC"]

/-- The `cvv` pattern (case-insensitive). -/
def cvvR : Regex :=
  seqR [.wb,
    altsR [
      seqR [cvvWordR, plusR (.cls sepCls), repR dR 3 4],
      seqR [strRi "expires", plusR spR, repR dR 1 2, chr '/', repN dR 4, chr ')',
            plusR spR, strRi "should"],
      seqR [repR dR 4 16, plusR (.cls ((',', ',') :: spaceCls)), cvvWordR,
            plusR (.cls sepCls), repR dR 3 4]],
    .wb]

/-- The `policyNumber` pattern (case-insensitive). -/
def policyNumberR : Regex :=
  seqR [.wb, altsR [strRi "policy", strRi "insurance"],
    optR (seqR [plusR spR, altsR [strRi "number", chr '#']]),
    .star (.cls sepCls),
    optR (altsR [strRi "POL-", strRi "POLICY-"]),
    repN dR 4, chr '-', repR dR 7 10, .wb]

/-- The `medicalRecord` pattern (case-insensitive). -/
def medicalRecordR : Regex :=
  seqR [.wb,
    altsR [strRi "MRN", strRi "HIC",
           seqR [strRi "medical", plusR spR, strRi "record",
                 optR (seqR [plusR spR, strRi "number"])]],
    plusR (.cls sepCls),
    repR dR 2 3, optR (chr '-'), repR dR 2 3, optR (chr '-'), repR dR 4 5,
    optR (.cls [('A', 'Z'), ('a', 'z')]), .wb]

/-- The class `[A-HJ-NPR-Z0-9]` under the `i` flag. -/
def vinCls : CRanges :=
  [('A', 'H'), ('J', 'N'), ('P', 'P'), ('R', 'Z'), ('0', '9'),
   ('a', 'h'), ('j', 'n'), ('p', 'p'), ('r', 'z')]

/-- The `vin` pattern (case-insensitive). -/
def vinR : Regex :=
  seqR [.wb,
    optR (seqR [altsR [strRi "VIN",
                       seqR [strRi "vehicle", plusR spR, strRi "identification",
                             plusR spR, strRi "number"]],
                plusR (.cls sepCls)]),
    repN (.cls vinCls) 17, .wb]

/-- The `routingNumber` pattern (case-insensitive). -/
def routingNumberR : Regex :=
  seqR [.wb, strRi "routing",
    optR (seqR [plusR spR, altsR [strRi "number", chr '#']]),
    plusR (.cls sepCls), repN dR 9, .wb]

/-- `number|#|no\.?` (case-insensitive). -/
def numberWordR : Regex :=
  altsR [strRi "number", chr '#', seqR [strRi "no", optR (chr '.')]]

/-- The `bankAccount` pattern (case-insensitive). -/
def bankAccountR : Regex :=
  seqR [.wb, strRi "account",
    optR (seqR [plusR spR, numberWordR]),
    plusR (.cls sepCls), repR dR 10 17, .wb]

/-- The `passport` pattern (case-insensitive). -/
def passportR : Regex :=
  seqR [.wb,
    optR (seqR [strRi "passport",
      optR (seqR [plusR spR, numberWordR]),
      plusR (.cls sepCls)]),
    repR (.cls [('A', 'Z'), ('a', 'z')]) 1 2, repR dR 7 9, .wb]

/-- The `driversLicense` pattern (case-insensitive). -/
def driversLicenseR : Regex :=
  seqR [.wb,
    altsR [
      seqR [strRi "driver", optR (chr apos), optR (chri 's'), plusR spR,
            altsR [strRi "license", strRi "DL"],
            optR (seqR [plusR spR, numberWordR]),
            plusR (.cls sepCls)],
      seqR [strRi "license", plusR spR, strRi "number",
            optR (seqR [plusR spR, strRi "is"]), plusR (.cls sepCls)]],
    .cls [('A', 'Z'), ('a', 'z')], repR dR 7 8, .wb]

/-- `/\b[A-Za-z0-9._%+-]+@[A-Za-z0-9.-]+\.[A-Z|a-z]{2,}\b/g` -/
def emailR : Regex :=
  seqR [.wb,
    plusR (.cls [('A', 'Z'), ('a', 'z'), ('0', '9'), ('.', '.'), ('_', '_'),
                 ('%', '%'), ('+', '+'), ('-', '-')]),
    chr '@',
    plusR (.cls [('A', 'Z'), ('a', 'z'), ('0', '9'), ('.', '.'), ('-', '-')]),
    chr '.',
    repAtLeast (.cls [('A', 'Z'), ('|', '|'), ('a', 'z')]) 2, .wb]

/-- `/(?:\+\d{1,3}[-.\s]?)?\(?\d{3}\)?[-.\s]?\d{3}[-.\s]?\d{4}\b/g` -/
def phoneR : Regex :=
  seqR [
    optR (seqR [chr '+', repR dR 1 3, optR (.cls phoneSepCls)]),
    optR (chr '('), repN dR 3, optR (chr ')'),
    optR (.cls phoneSepCls), repN dR 3,
    optR (.cls phoneSepCls), repN dR 4, .wb]

/-- `/\b\d{5}(?:-\d{4})?\b/g` -/
def zipCodeR : Regex :=
  seqR [.wb, repN dR 5, optR (seqR [chr '-', repN dR 4]), .wb]

/-- `25[0-5]|2[0-4][0-9]|[01]?[0-9][0-9]?` -/
def ipOctetR : Regex :=
  altsR [seqR [strR "25", .cls [('0', '5')]],
         seqR [chr '2', .cls [('0', '4')], .cls [('0', '9')]],
         seqR [optR (.cls [('0', '1')]), .cls [('0', '9')], optR (.cls [('0', '9')])]]

/-- The `ipv4` pattern. -/
def ipv4R : Regex :=
  seqR [.wb, repN (seqR [ipOctetR, chr '.']) 3, ipOctetR, .wb]

/-- `(?:19|20)\d{2}`. -/
def yearR : Regex := seqR [altsR [strR "19", strR "20"], repN dR 2]

/-- The `dateOfBirth` pattern (case-insensitive). -/
def dateOfBirthR : Regex :=
  seqR [.wb,
    altsR [strRi "DOB",
           seqR [strRi "date", plusR spR, strRi "of", plusR spR, strRi "birth"],
           seqR [strRi "born", plusR spR, strRi "on"],
           seqR [strRi "birth", plusR spR, strRi "date"]],
    plusR (.cls sepCls),
    altsR [
      seqR [altsR [seqR [optR (chr '0'), .cls [('1', '9')]],
                   seqR [chr '1', .cls [('0', '2')]]],
            .cls [('-', '-'), ('/', '/')],
            altsR [seqR [optR (chr '0'), .cls [('1', '9')]],
                   seqR [.cls [('1', '2')], .cls [('0', '9')]],
                   seqR [chr '3', .cls [('0', '1')]]],
            .cls [('-', '-'), ('/', '/')],
            yearR],
      seqR [altsR (["January", "February", "March", "April", "May", "June",
                    "July", "August", "September", "October", "November",
                    "December", "Jan", "Feb", "Mar", "Apr", "Jun", "Jul",
                    "Aug", "Sep", "Oct", "Nov", "Dec"].map strRi),
            plusR spR, repR dR 1 2, optR (chr ','), plusR spR, yearR]],
    .wb]

/-- The `titleName` pattern (case-sensitive). -/
def titleNameR : Regex :=
  seqR [.wb,
    altsR [strR "Dr", strR "Mr", strR "Mrs", strR "Ms", strR "Prof", strR "Professor"],
    optR (chr '.'), plusR spR, capWordR,
    .star (seqR [.cls (('-', '-') :: (apos, apos) :: spaceCls), capWordR]),
    repR (seqR [plusR spR, capWordR,
                .star (seqR [.cls [('-', '-'), (apos, apos)], capWordR])]) 0 2,
    .wb]

/-- The `fullName` pattern (case-sensitive). -/
def fullNameR : Regex :=
  seqR [.wb,
    altsR [seqR [strR "my", plusR spR, altsR [strR "name", strR "colleague"],
                 plusR spR, strR "is"],
           strR "with",
           seqR [strR "coordinating", plusR spR, strR "with"]],
    plusR spR, capWordR, plusR spR, capWordR, optR (seqR [plusR spR, capWordR]),
    .wb]

/-- The `organization` pattern (case-sensitive). -/
def organizationR : Regex :=
  seqR [.wb,
    repR (seqR [.cls [('A', 'Z')], plusR (.cls [('A', 'Z'), ('a', 'z')]), plusR spR]) 1 4,
    altsR [strR "Corporation", seqR [strR "Corp", optR (chr '.')],
           seqR [strR "Inc", optR (chr '.')], strR "LLC",
           seqR [strR "Ltd", optR (chr '.')], strR "Limited", strR "Company",
           seqR [strR "Co", optR (chr '.')], strR "Bank", strR "Services",
           strR "Systems", strR "Solutions", strR "Technologies", strR "Group",
           strR "Partners", strR "Industries",
           seqR [strR "Medical", plusR spR, strR "Center"],
           strR "University", strR "College", strR "Pharmacy"],
    .wb]

/-- The ordered pattern table `PII_PATTERNS_ORDERED`. -/
def PII_PATTERNS_ORDERED : List (String × Regex) :=
  [("ssn", ssnR), ("creditCard", creditCardR), ("cvv", cvvR),
   ("policyNumber", policyNumberR), ("medicalRecord", medicalRecordR),
   ("vin", vinR), ("routingNumber", routingNumberR),
   ("bankAccount", bankAccountR), ("passport", passportR),
   ("driversLicense", driversLicenseR), ("email", emailR), ("phone", phoneR),
   ("zipCode", zipCodeR), ("ipv4", ipv4R), ("dateOfBirth", dateOfBirthR),
   ("titleName", titleNameR), ("fullName", fullNameR),
   ("organization", organizationR)]

/-- Relational model of one item pushed by the regex loop of `detectPII`:
some pattern of the ordered table matched `it.value` at `it.index` in
`text`, and the item carries the fields the loop fills in. -/
def IsRegexDetection (text : List Char) (it : Item) : Prop :=
  ∃ p ∈ PII_PATTERNS_ORDERED, it.type = p.1 ∧ it.source = "regex" ∧
    it.confidence = 1 ∧ Matches p.2 it.value ∧
    ∃ pre post, text = pre ++ it.value ++ post ∧ it.index = pre.length

end PII

namespace PII

/-! ## Order instances and deduplication lemmas -/

instance : IsTotal Item leIdx := ⟨fun a b => Nat.le_total a.index b.index⟩

instance : IsTrans Item leIdx := ⟨fun _ _ _ => Nat.le_trans⟩

instance : IsTotal Item geIdx := ⟨fun a b => Nat.le_total b.index a.index⟩

instance : IsTrans Item geIdx := ⟨fun _ _ _ h1 h2 => Nat.le_trans h2 h1⟩

theorem overlapsP_symm {a b : Item} (h : overlapsP a b) : overlapsP b a := by
  unfold overlapsP at h ⊢; omega

theorem mem_dedupScan_of_mem_kept {l kept : List Item} {x : Item}
    (hx : x ∈ kept) : x ∈ dedupScan kept l := by
  induction l generalizing kept with
  | nil => simpa [dedupScan] using hx
  | cons y ys ih =>
    simp only [dedupScan]
    split
    · exact ih hx
    · exact ih (List.mem_append_left _ hx)

theorem mem_of_mem_dedupScan {l kept : List Item} {x : Item}
    (hx : x ∈ dedupScan kept l) : x ∈ kept ∨ x ∈ l := by
  induction l generalizing kept with
  | nil => exact Or.inl (by simpa [dedupScan] using hx)
  | cons y ys ih =>
    simp only [dedupScan] at hx
    split at hx
    · rcases ih hx with h | h
      · exact Or.inl h
      · exact Or.inr (List.mem_cons_of_mem _ h)
    · rcases ih hx with h | h
      · rcases List.mem_append.mp h with h' | h'
        · exact Or.inl h'
        · simp only [List.mem_singleton] at h'
          exact Or.inr (h' ▸ List.mem_cons_self _ _)
      · exact Or.inr (List.mem_cons_of_mem _ h)

theorem dedupScan_pairwise {l kept : List Item}
    (hk : List.Pairwise (fun a b => ¬ overlapsP a b) kept) :
    List.Pairwise (fun a b => ¬ overlapsP a b) (dedupScan kept l) := by
  induction l generalizing kept with
  | nil => simpa [dedupScan] using hk
  | cons y ys ih =>
    simp only [dedupScan]
    split
    · exact ih hk
    · rename_i hguard
      apply ih
      rw [List.pairwise_append]
      refine ⟨hk, List.pairwise_singleton _ _, ?_⟩
      intro a ha b hb
      simp only [List.mem_singleton] at hb
      subst hb
      simp only [List.any_eq_true, decide_eq_true_eq, not_exists] at hguard
      push_neg at hguard
      intro hov
      exact hguard a ha (overlapsP_symm hov)

theorem dedupScan_blocker {l kept : List Item}
    (hsorted : List.Pairwise leIdx l)
    (hk : ∀ e ∈ kept, ∀ z ∈ l, e.index ≤ z.index) :
    ∀ x ∈ l, x ∉ dedupScan kept l →
      ∃ y ∈ dedupScan kept l, overlapsP x y ∧ y.index ≤ x.index := by
  induction l generalizing kept with
  | nil => intro x hx; cases hx
  | cons y ys ih =>
    intro x hx hnot
    simp only [dedupScan] at hnot ⊢
    rcases List.mem_cons.mp hx with rfl | hx'
    · by_cases hguard : (kept.any fun e => decide (overlapsP x e)) = true
      · rw [if_pos hguard] at hnot ⊢
        simp only [List.any_eq_true, decide_eq_true_eq] at hguard
        obtain ⟨e, he, hov⟩ := hguard
        exact ⟨e, mem_dedupScan_of_mem_kept he, hov,
          hk e he x (List.mem_cons_self _ _)⟩
      · rw [if_neg hguard] at hnot
        exact absurd (mem_dedupScan_of_mem_kept (List.mem_append_right _
          (List.mem_singleton_self x))) hnot
    · by_cases hguard : (kept.any fun e => decide (overlapsP y e)) = true
      · rw [if_pos hguard] at hnot ⊢
        exact ih (List.Pairwise.sublist (List.sublist_cons_self _ _) hsorted)
          (fun e he z hz => hk e he z (List.mem_cons_of_mem _ hz)) x hx' hnot
      · rw [if_neg hguard] at hnot ⊢
        refine ih (List.Pairwise.sublist (List.sublist_cons_self _ _) hsorted) ?_ x hx' hnot
        intro e he z hz
        rcases List.mem_append.mp he with h' | h'
        · exact hk e h' z (List.mem_cons_of_mem _ hz)
        · simp only [List.mem_singleton] at h'
          subst h'
          exact (List.pairwise_cons.mp hsorted).1 z hz

theorem mem_of_mem_dedupItems {items : List Item} {x : Item}
    (hx : x ∈ dedupItems items) : x ∈ items := by
  rcases mem_of_mem_dedupScan hx with h | h
  · cases h
  · exact (List.perm_insertionSort leIdx items).mem_iff.mp h

theorem dedupItems_pairwise (items : List Item) :
    List.Pairwise (fun a b => ¬ overlapsP a b) (dedupItems items) :=
  dedupScan_pairwise List.Pairwise.nil

theorem dedupItems_blocker {items : List Item} :
    ∀ x ∈ items, x ∉ dedupItems items →
      ∃ y ∈ dedupItems items, overlapsP x y ∧ y.index ≤ x.index := by
  intro x hx hnot
  have hx' : x ∈ List.insertionSort leIdx items :=
    (List.perm_insertionSort leIdx items).mem_iff.mpr hx
  exact dedupScan_blocker (List.sorted_insertionSort leIdx items)
    (by intro e he; cases he) x hx' hnot

end PII

namespace PII

/-! ## Substring and store lemmas -/

theorem substringJS_of_le {s : List Char} {i n : Nat} (h : i + n ≤ s.length) :
    substringJS s i (i + n) = (s.drop i).take n := by
  simp only [substringJS]
  rw [Nat.min_eq_left (by omega), Nat.min_eq_left h, Nat.min_eq_left (by omega),
    Nat.max_eq_right (by omega)]
  congr 1
  omega

theorem substringJS_recomb {s : List Char} {i n : Nat} (h : i + n ≤ s.length) :
    s.take i ++ substringJS s i (i + n) ++ s.drop (i + n) = s := by
  rw [substringJS_of_le h, ← List.drop_drop, List.append_assoc,
    List.take_append_drop, List.take_append_drop]

theorem substringJS_append_left {a b : List Char} {i n : Nat}
    (h : i + n ≤ a.length) :
    substringJS (a ++ b) i (i + n) = substringJS a i (i + n) := by
  rw [substringJS_of_le h, substringJS_of_le (by simp; omega),
    List.drop_append_of_le_length (by omega),
    List.take_append_of_le_length (by simp; omega)]

theorem setEntry_key_stable {m : Store} {k v k' v' : List Char}
    (h : (k', v') ∈ m) : ∃ v'', (k', v'') ∈ setEntry m k v := by
  induction m with
  | nil => cases h
  | cons e rest ih =>
    obtain ⟨ek, ev⟩ := e
    simp only [setEntry]
    rcases List.mem_cons.mp h with heq | hmem
    · by_cases hk : ek = k
      · subst hk
        rw [if_pos rfl]
        cases heq
        exact ⟨v, List.mem_cons_self _ _⟩
      · rw [if_neg hk]
        cases heq
        exact ⟨v', List.mem_cons_self _ _⟩
    · by_cases hk : ek = k
      · subst hk
        rw [if_pos rfl]
        exact ⟨v', List.mem_cons_of_mem _ hmem⟩
      · rw [if_neg hk]
        obtain ⟨v'', hv''⟩ := ih hmem
        exact ⟨v'', List.mem_cons_of_mem _ hv''⟩

theorem setEntry_key_new {m : Store} {k v : List Char}
    (h : ∀ e ∈ m, e.1 ≠ k) : setEntry m k v = m ++ [(k, v)] := by
  induction m with
  | nil => rfl
  | cons e rest ih =>
    obtain ⟨ek, ev⟩ := e
    simp only [setEntry]
    rw [if_neg (h (ek, ev) (List.mem_cons_self _ _)), ih]
    · rfl
    · exact fun e he => h e (List.mem_cons_of_mem _ he)

theorem foldl_maskStep_key_stable {its : List Item} {st : MaskSt}
    {k v : List Char} (h : (k, v) ∈ st.store) :
    ∃ v', (k, v') ∈ (its.foldl maskStep st).store := by
  induction its generalizing st v with
  | nil => exact ⟨v, h⟩
  | cons x xs ih =>
    simp only [List.foldl_cons]
    have hstep : ∃ v'', (k, v'') ∈ (maskStep st x).store := by
      simp only [maskStep]
      split
      · exact setEntry_key_stable h
      · exact setEntry_key_stable h
    obtain ⟨v'', hv''⟩ := hstep
    exact ih hv''

/-! ## The chunker of the `detectMLOffscreen` handler -/

/-- The chunking loop:
`for (let i = 0; i < len; i += maxChars - overlap)` with
`maxChars = 150`, `overlap = 15`, each chunk being
`text.substring(i, Math.min(i + maxChars, len))` together with its offset. -/
def chunksFrom (text : List Char) (i : Nat) : List (List Char × Nat) :=
  if _h : i < text.length then
    (substringJS text i (min (i + 150) text.length), i) :: chunksFrom text (i + 135)
  else []
  termination_by text.length - i
  decreasing_by omega

/-- The chunking step of the `detectMLOffscreen` handler: one chunk at
offset 0 when the text fits in `maxChars`, otherwise the sliding loop. -/
def chunkTextJS (text : List Char) : List (List Char × Nat) :=
  if text.length ≤ 150 then [(text, 0)] else chunksFrom text 0

theorem chunksFrom_length_le {text : List Char} {i : Nat} :
    ∀ c ∈ chunksFrom text i, c.1.length ≤ 150 := by
  have key : ∀ n j, text.length - j ≤ n → ∀ c ∈ chunksFrom text j, c.1.length ≤ 150 := by
    intro n
    induction n with
    | zero =>
      intro j hn c hc
      rw [chunksFrom, dif_neg (by omega)] at hc
      cases hc
    | succ n ih =>
      intro j hn c hc
      by_cases hj : j < text.length
      · rw [chunksFrom, dif_pos hj] at hc
        rcases List.mem_cons.mp hc with rfl | h
        · simp only [substringJS, List.length_take, List.length_drop]
          omega
        · exact ih (j + 135) (by omega) c h
      · rw [chunksFrom, dif_neg hj] at hc
        cases hc
  exact key (text.length - i) i le_rfl

theorem chunksFrom_chunk_length {text : List Char} {i : Nat} (hi : i < text.length) :
    (substringJS text i (min (i + 150) text.length)).length
      = min (i + 150) text.length - i := by
  have h : i + (min (i + 150) text.length - i) ≤ text.length := by omega
  have : min (i + 150) text.length = i + (min (i + 150) text.length - i) := by omega
  rw [this, substringJS_of_le h]
  simp only [List.length_take, List.length_drop]
  omega

theorem chunksFrom_cover (text : List Char) :
    ∀ i p, i ≤ p → p < text.length →
      ∃ c ∈ chunksFrom text i, c.2 ≤ p ∧ p < c.2 + c.1.length := by
  have key : ∀ n i p, text.length - i ≤ n → i ≤ p → p < text.length →
      ∃ c ∈ chunksFrom text i, c.2 ≤ p ∧ p < c.2 + c.1.length := by
    intro n
    induction n with
    | zero => intro i p hn hip hp; omega
    | succ n ih =>
      intro i p hn hip hp
      have hi : i < text.length := lt_of_le_of_lt hip hp
      rw [chunksFrom, dif_pos hi]
      by_cases hcase : p < min (i + 150) text.length
      · refine ⟨_, List.mem_cons_self _ _, hip, ?_⟩
        simp only [chunksFrom_chunk_length hi]
        omega
      · have h135 : i + 135 ≤ p := by omega
        obtain ⟨c, hc, h1, h2⟩ := ih (i + 135) p (by omega) h135 hp
        exact ⟨c, List.mem_cons_of_mem _ hc, h1, h2⟩
  exact fun i p => key (text.length - i) i p le_rfl

/-- C6: if the text is at most `maxChars` long the chunker outputs a single
chunk at offset 0; no produced chunk ever exceeds `maxChars = 150`
characters; and on a 300-character input every position `0..299` is covered
by some chunk. -/
theorem chunker_single_bounded_covering :
    (∀ text : List Char, text.length ≤ 150 → chunkTextJS text = [(text, 0)]) ∧
    (∀ text : List Char, ∀ c ∈ chunkTextJS text, c.1.length ≤ 150) ∧
    (∀ text : List Char, text.length = 300 → ∀ p < 300,
      ∃ c ∈ chunkTextJS text, c.2 ≤ p ∧ p < c.2 + c.1.length) := by
  refine ⟨?_, ?_, ?_⟩
  · intro text h
    simp [chunkTextJS, h]
  · intro text c hc
    by_cases h : text.length ≤ 150
    · simp only [chunkTextJS, if_pos h] at hc
      rcases List.mem_cons.mp hc with rfl | h'
      · exact h
      · cases h'
    · simp only [chunkTextJS, if_neg h] at hc
      exact chunksFrom_length_le c hc
  · intro text h300 p hp
    have h : ¬ text.length ≤ 150 := by omega
    simp only [chunkTextJS, if_neg h]
    exact chunksFrom_cover text 0 p (Nat.zero_le p) (by omega)

/-- C6 witness: instantiating the chunker theorem at a concrete short text
and at a concrete 300-character text with position 299. -/
theorem chunker_single_bounded_covering_witness :
    chunkTextJS "hi".data = [("hi".data, 0)] ∧
    ∃ c ∈ chunkTextJS (List.replicate 300 'a'), c.2 ≤ 299 ∧ 299 < c.2 + c.1.length := by
  constructor
  · exact chunker_single_bounded_covering.1 "hi".data (by decide)
  · exact chunker_single_bounded_covering.2.2 (List.replicate 300 'a')
      (List.length_replicate 300 'a') 299 (by omega)

end PII

namespace PII

/-! ## Concrete detections used as instances -/

/-- An email detection at offset 0. -/
def emailItemA : Item := ⟨"email", "a@b.io".data, 0, "regex", 1⟩

/-- An email detection at offset 7. -/
def emailItemC : Item := ⟨"email", "c@d.io".data, 7, "regex", 1⟩

theorem email_mem_patterns : ("email", emailR) ∈ PII_PATTERNS_ORDERED := by
  unfold PII_PATTERNS_ORDERED
  repeat first | exact List.mem_cons_self _ _ | refine List.mem_cons_of_mem _ ?_

theorem matches_email_a : Matches emailR "a@b.io".data :=
  bmatch_sound (by decide)

theorem matches_email_c : Matches emailR "c@d.io".data :=
  bmatch_sound (by decide)

theorem isDet_a : IsRegexDetection "a@b.io".data emailItemA :=
  ⟨("email", emailR), email_mem_patterns, rfl, rfl, rfl, matches_email_a,
   [], [], by simp [emailItemA], rfl⟩

theorem isDet_pair_a : IsRegexDetection "a@b.io c@d.io".data emailItemA :=
  ⟨("email", emailR), email_mem_patterns, rfl, rfl, rfl, matches_email_a,
   [], " c@d.io".data, by decide, rfl⟩

theorem isDet_pair_c : IsRegexDetection "a@b.io c@d.io".data emailItemC :=
  ⟨("email", emailR), email_mem_patterns, rfl, rfl, rfl, matches_email_c,
   "a@b.io ".data, [], by decide, by decide⟩

/-- C5: every span produced by (relaxed) regex detection lies within
`[0, len t]`, and the deduplication phase of `maskDetectedPII` keeps only
pairwise non-overlapping spans drawn from the input, every dropped span
being blocked by a kept span that starts no later than it. -/
theorem detect_spans_in_range_and_dedup_nonoverlap :
    (∀ (t : List Char) (it : Item), IsRegexDetection t it →
      it.index + it.value.length ≤ t.length) ∧
    (∀ items : List Item,
      List.Pairwise (fun a b => ¬ overlapsP a b) (dedupItems items) ∧
      (∀ y ∈ dedupItems items, y ∈ items) ∧
      (∀ x ∈ items, x ∉ dedupItems items →
        ∃ y ∈ dedupItems items, overlapsP x y ∧ y.index ≤ x.index)) := by
  constructor
  · rintro t it ⟨p, _, _, _, _, _, pre, post, heq, hidx⟩
    subst heq
    simp only [List.length_append]
    omega
  · intro items
    exact ⟨dedupItems_pairwise items, fun y hy => mem_of_mem_dedupItems hy,
      dedupItems_blocker⟩

/-- C5 witness: the bound at a concrete email detection, and the dedup
properties at a concrete overlapping item list. -/
theorem detect_spans_in_range_and_dedup_nonoverlap_witness :
    emailItemA.index + emailItemA.value.length ≤ "a@b.io".data.length ∧
    List.Pairwise (fun a b => ¬ overlapsP a b) (dedupItems [emailItemA, emailItemC]) :=
  ⟨detect_spans_in_range_and_dedup_nonoverlap.1 "a@b.io".data emailItemA isDet_a,
   (detect_spans_in_range_and_dedup_nonoverlap.2 [emailItemA, emailItemC]).1⟩

/-- C2 (amended): across any sequence of masking calls the MappingStore only
gains keys — an entry present before a call is still present (under the same
placeholder key) afterwards; a repeated write to the same placeholder key,
however, silently overwrites the previous value (see the counterexample). -/
theorem mappingStore_keys_monotone :
    ∀ (text : List Char) (items : List Item) (store : Store) (k v : List Char),
      (k, v) ∈ store → ∃ v', (k, v') ∈ (maskDetectedPII text items store).2 := by
  intro text items store k v h
  unfold maskDetectedPII maskDetectedPIISt
  split
  · exact ⟨v, h⟩
  · exact foldl_maskStep_key_stable h

/-- C2 witness: key monotonicity at a concrete call. -/
theorem mappingStore_keys_monotone_witness :
    ∃ v', ("k".data, v') ∈
      (maskDetectedPII "a@b.io".data [emailItemA] [("k".data, "v".data)]).2 :=
  mappingStore_keys_monotone "a@b.io".data [emailItemA] [("k".data, "v".data)]
    "k".data "v".data (List.mem_cons_self _ _)

/-- C2 counterexample: the first call records the original value
`"c@d.io"` under `[REDACTED_EMAIL]`; a second call for a different email
silently overwrites that entry with `"a@b.io"` — the previously recorded
differing value is gone. -/
theorem mappingStore_overwrite_cex :
    (generateMask "email", "c@d.io".data) ∈
      (maskDetectedPII "c@d.io".data [⟨"email", "c@d.io".data, 0, "regex", 1⟩] []).2 ∧
    (generateMask "email", "c@d.io".data) ∉
      (maskDetectedPII "a@b.io".data [emailItemA]
        (maskDetectedPII "c@d.io".data [⟨"email", "c@d.io".data, 0, "regex", 1⟩] []).2).2 ∧
    (generateMask "email", "a@b.io".data) ∈
      (maskDetectedPII "a@b.io".data [emailItemA]
        (maskDetectedPII "c@d.io".data [⟨"email", "c@d.io".data, 0, "regex", 1⟩] []).2).2 := by
  decide

/-- One substitution of the replacement loop (text effect only). -/
def applyItem (text : List Char) (it : Item) : List Char :=
  text.take it.index ++ generateMask it.type ++ text.drop (it.index + it.value.length)

theorem foldl_maskStep_applied (its : List Item) :
    ∀ (t : List Char) (s : Store) (ap : List Item),
      ∃ newAp, (its.foldl maskStep ⟨t, s, ap⟩).applied = ap ++ newAp ∧
        (its.foldl maskStep ⟨t, s, ap⟩).text = newAp.foldl applyItem t := by
  induction its with
  | nil => exact fun t s ap => ⟨[], by simp, by simp⟩
  | cons x xs ih =>
    intro t s ap
    simp only [List.foldl_cons]
    by_cases hv : substringJS t x.index (x.index + x.value.length) = x.value
    · have hstep : maskStep ⟨t, s, ap⟩ x =
        ⟨applyItem t x, setEntry s (generateMask x.type) x.value, ap ++ [x]⟩ := by
        simp [maskStep, hv, applyItem]
      rw [hstep]
      obtain ⟨na, h1, h2⟩ := ih (applyItem t x) (setEntry s (generateMask x.type) x.value) (ap ++ [x])
      exact ⟨x :: na, by simpa using h1, by simpa using h2⟩
    · have hstep : maskStep ⟨t, s, ap⟩ x =
        ⟨t, setEntry s (generateMask x.type) x.value, ap⟩ := by
        simp [maskStep, hv]
      rw [hstep]
      exact ih t _ ap

/-- C3 (amended): `maskDetectedPII` returns only the substituted text — that
text equals the input with exactly the actually-applied spans substituted,
but the applied-span list itself is not part of the returned value (the
counterexample shows it cannot be recovered from the return value). -/
theorem maskedText_eq_applied_substitution :
    ∀ (t : List Char) (items : List Item) (store : Store),
      (maskDetectedPII t items store).1 = (appliedSpans t items store).foldl applyItem t := by
  intro t items store
  unfold maskDetectedPII appliedSpans maskDetectedPIISt
  split
  · simp
  · obtain ⟨na, h1, h2⟩ := foldl_maskStep_applied
      (List.insertionSort geIdx (dedupItems items)) t store []
    simp only [List.nil_append] at h1
    rw [h1]
    exact h2

/-- C3 counterexample: two calls with different sets of actually-applied
spans return bit-identical values (same masked text, same store), so the
return value of `maskDetectedPII` does not carry the applied-span list. -/
theorem mask_return_no_appliedSpans_cex :
    maskDetectedPII "a@b.io hi".data [emailItemA] [] =
      maskDetectedPII "[REDACTED_EMAIL] hi".data [emailItemA] [] ∧
    appliedSpans "a@b.io hi".data [emailItemA] [] ≠
      appliedSpans "[REDACTED_EMAIL] hi".data [emailItemA] [] := by
  decide

end PII

namespace PII

/-! ## Offscreen document pipeline (`detectMLOffscreen` handler) -/

/-- A raw classifier token as handled by the offscreen script:
word, entity label, score, and possibly-absent character offsets. -/
structure RawToken where
  word : List Char
  entity : String
  score : ℚ
  start : Option Nat
  stop : Option Nat
  deriving DecidableEq, Repr

/-- `s.replace(/^p/, '')` for a literal prefix `p`. -/
def stripOnePrefix (p s : List Char) : List Char :=
  if p.isPrefixOf s then s.drop p.length else s

/-- Offset adjustment of one chunk result: tokens with a valid position get
the chunk offset added; tokens without one are searched in the chunk text
from position 0 (not anchored), and wiped when that search fails. -/
def adjustToken (chunkText : List Char) (offset : Nat) (tok : RawToken) : RawToken :=
  let hasValidPos := tok.start.isSome && tok.stop.isSome
  if hasValidPos then
    { tok with start := tok.start.map (· + offset), stop := tok.stop.map (· + offset) }
  else
    let cleanWord := trimJS (stripOnePrefix "##".data (stripOnePrefix "▁".data tok.word))
    if cleanWord.length > 0 then
      match indexOfFrom chunkText cleanWord 0 with
      | some i =>
        { tok with start := some (i + offset), stop := some (i + cleanWord.length + offset) }
      | none => { tok with start := none, stop := none }
    else { tok with start := none, stop := none }

/-- Handling of a new (non-continuation) word during sub-word grouping:
when its start offset is missing, search the full text from `lastPos`
onward; on success set both offsets and move the search position. -/
def newWordFrom (text : List Char) (lastPos : Nat) (tok : RawToken) : RawToken × Nat :=
  if tok.start.isNone then
    let cleanWord := stripOnePrefix "##".data tok.word
    match indexOfFrom text cleanWord lastPos with
    | some i => ({ tok with start := some i, stop := some (i + cleanWord.length) }, i)
    | none => (tok, lastPos)
  else (tok, lastPos)

/-- State of the sub-word grouping loop. -/
structure GroupSt where
  words : List RawToken
  current : Option RawToken
  lastSearchPos : Nat
  deriving Repr

/-- One iteration of the sub-word grouping loop (Step 1 of the handler). -/
def groupStep (text : List Char) (st : GroupSt) (tok : RawToken) : GroupSt :=
  if "##".data.isPrefixOf tok.word then
    match st.current with
    | some cur =>
      let cur1 := { cur with word := cur.word ++ tok.word.drop 2 }
      let cur2 := match tok.stop with
        | some e => { cur1 with stop := some e }
        | none => cur1
      { st with current := some { cur2 with score := max cur2.score tok.score } }
    | none => st
  else
    let pushed : List RawToken × Nat :=
      match st.current with
      | some cur =>
        (st.words ++ [cur], match cur.stop with | some e => e | none => st.lastSearchPos)
      | none => (st.words, st.lastSearchPos)
    let resolved := newWordFrom text pushed.2 tok
    { words := pushed.1, current := some resolved.1, lastSearchPos := resolved.2 }

/-- Step 1 of the handler: group sub-word tokens into words. -/
def groupWords (text : List Char) (tokens : List RawToken) : List RawToken :=
  let st := tokens.foldl (groupStep text) ⟨[], none, 0⟩
  match st.current with
  | some cur => st.words ++ [cur]
  | none => st.words

/-- The fallback label normalisation: strip one leading B- or I-. -/
def stripBIDash (s : List Char) : List Char :=
  match s with
  | 'B' :: '-' :: r => r
  | 'I' :: '-' :: r => r
  | _ => s

/-- `mapEntityType` from the offscreen script. -/
def mapEntityType (nerEntity : String) : String :=
  if nerEntity = "I-ACCOUNTNUM" then "account"
  else if nerEntity = "I-BUILDINGNUM" then "building"
  else if nerEntity = "I-CITY" then "location"
  else if nerEntity = "I-CREDITCARDNUMBER" then "creditCard"
  else if nerEntity = "I-DATEOFBIRTH" then "dateOfBirth"
  else if nerEntity = "I-DRIVERLICENSENUM" then "license"
  else if nerEntity = "I-EMAIL" then "email"
  else if nerEntity = "I-GIVENNAME" then "person"
  else if nerEntity = "I-IDCARDNUM" then "idCard"
  else if nerEntity = "I-PASSWORD" then "password"
  else if nerEntity = "I-SOCIALNUM" then "ssn"
  else if nerEntity = "I-STREET" then "address"
  else if nerEntity = "I-SURNAME" then "person"
  else if nerEntity = "I-TAXNUM" then "taxId"
  else if nerEntity = "I-TELEPHONENUM" then "phone"
  else if nerEntity = "I-USERNAME" then "username"
  else if nerEntity = "I-ZIPCODE" then "zipcode"
  else if nerEntity = "O" then "none"
  else if nerEntity = "B-PER" then "person"
  else if nerEntity = "I-PER" then "person"
  else if nerEntity = "B-LOC" then "location"
  else if nerEntity = "I-LOC" then "location"
  else if nerEntity = "B-ORG" then "organization"
  else if nerEntity = "I-ORG" then "organization"
  else if nerEntity = "B-MISC" then "misc"
  else if nerEntity = "I-MISC" then "misc"
  else String.mk (toLowerJS (stripBIDash nerEntity.data))

/-- A (possibly merged) entity of Step 2 of the handler. -/
structure Entity where
  entity : String
  type : String
  word : List Char
  score : ℚ
  start : Option Nat
  stop : Option Nat
  deriving DecidableEq, Repr

/-- One iteration of the entity-merging loop (Step 2): same mapped type,
defined offsets, gap in `[0, 2]`, and a nonempty re-sliced text fuse the
word into the current entity with the minimum score; otherwise the current
entity is pushed (only if positioned) and a new one starts. -/
def mergeStep (text : List Char) (st : List Entity × Option Entity) (w : RawToken) :
    List Entity × Option Entity :=
  let entityType := mapEntityType w.entity
  let tryMerge : Option Entity :=
    match st.2, w.start with
    | some cur, some ws =>
      if entityType = cur.type then
        match cur.start, cur.stop with
        | some cs, some ce =>
          if ce ≤ ws ∧ ws - ce ≤ 2 then
            let mergedText :=
              match w.stop with
              | some we => substringJS text cs we
              | none => substringJS text cs text.length
            if mergedText ≠ [] ∧ (trimJS mergedText).length > 0 then
              some { cur with
                       word := mergedText
                       stop := w.stop
                       score := min cur.score w.score }
            else none
          else none
        | _, _ => none
      else none
    | _, _ => none
  match tryMerge with
  | some cur' => (st.1, some cur')
  | none =>
    let pushed :=
      match st.2 with
      | some cur => if cur.start.isSome then st.1 ++ [cur] else st.1
      | none => st.1
    (pushed, some { entity := w.entity, type := entityType, word := w.word,
                    score := w.score, start := w.start, stop := w.stop })

/-- Step 2 of the handler: merge consecutive same-type words. -/
def mergeWords (text : List Char) (words : List RawToken) : List Entity :=
  let st := words.foldl (mergeStep text) ([], none)
  match st.2 with
  | some cur =>
    if cur.start.isSome ∧ cur.word ≠ [] ∧ (trimJS cur.word).length > 0
    then st.1 ++ [cur] else st.1
  | none => st.1

/-- Lowercase the label, then strip one leading b- or i-. -/
def stripLowerBI (s : String) : String :=
  String.mk
    (match toLowerJS s.data with
     | 'b' :: '-' :: r => r
     | 'i' :: '-' :: r => r
     | r => r)

/-- `getMinConfidence` of the offscreen script. -/
def getMinConfidence (entityType : String) : ℚ :=
  let type := stripLowerBI entityType
  if type = "socialnumber" then 0.80
  else if type = "driverlicense" then 0.75
  else if type = "passport" then 0.75
  else if type = "idcard" then 0.75
  else if type = "pass" then 0.80
  else if type = "givenname1" then 0.60
  else if type = "givenname2" then 0.60
  else if type = "lastname1" then 0.60
  else if type = "lastname2" then 0.60
  else if type = "lastname3" then 0.60
  else if type = "email" then 0.80
  else if type = "tel" then 0.90
  else if type = "ip" then 0.75
  else if type = "username" then 0.65
  else if type = "city" then 0.55
  else if type = "country" then 0.55
  else if type = "state" then 0.55
  else if type = "street" then 0.60
  else if type = "building" then 0.60
  else if type = "postcode" then 0.60
  else if type = "secaddress" then 0.60
  else if type = "geocoord" then 0.65
  else if type = "bod" then 0.70
  else if type = "date" then 0.60
  else if type = "time" then 0.60
  else if type = "title" then 0.50
  else if type = "sex" then 0.65
  else 0.60

/-- Letters, as tested by `/[a-z]/i`. -/
def letterCls : CRanges := [('a', 'z'), ('A', 'Z')]

/-- Whether some character of `s` is in `rs`. -/
def hasCharIn (rs : CRanges) (s : List Char) : Bool := s.any (memRanges rs)

/-- Whether the rest of the word starts with `.` followed by a digit. -/
def startsDotDigit : List Char → Bool
  | '.' :: c :: _ => c.isDigit
  | _ => false

/-- `/^\d+\.\d+/.test(word)`. -/
def ipStartB (w : List Char) : Bool :=
  let ds := w.takeWhile Char.isDigit
  !ds.isEmpty && startsDotDigit (w.drop ds.length)

/-- The format/plausibility filter of Step 3 (the big `.filter` callback),
as a sequence of early-return rejections. -/
def plausibleEntity (entity : Entity) : Bool :=
  let word := trimJS (toLowerJS entity.word)
  let type := stripLowerBI entity.type
  let hasLetters := hasCharIn letterCls word
  let hasNumbers := hasCharIn digitCls word
  let digits := word.filter Char.isDigit
  if word.length < 2 then false
  else if hasLetters && hasNumbers && !(word.contains '@') && !(word.contains '.') &&
      !(type == "username" || type == "pass" || type == "driverlicense") then false
  else if type == "ip" && !(ipStartB word) then false
  else if type == "email" && !(word.contains '@') && !(word.contains '.') then false
  else if type == "email" &&
      (word == "his".data || word == "her".data || word == "my".data ||
       word == "your".data || word == "office".data || word == "home".data) then false
  else if type == "tel" && (digits.length < 7 || digits.length > 15) then false
  else if type == "tel" && ("-".data.isSuffixOf word || "-".data.isPrefixOf word) then false
  else if (type == "bod" || type == "date") &&
      (digits.length < 4 || "-".data.isSuffixOf word || "/".data.isSuffixOf word) then false
  else if (type == "bod" || type == "date") &&
      (!(word.contains '/') && !(word.contains '-') && digits.length < 6) then false
  else if (type == "street" || type == "building" || type == "secaddress") &&
      word.length < 3 then false
  else if (type == "street" || type == "building" || type == "secaddress") &&
      (word.all Char.isDigit && word.length < 5) then false
  else if type == "socialnumber" && word.length < 9 then false
  else true

/-- A detected item emitted by the offscreen handler
(`\x7b type, value, score, start, end, source, confidence \x7d`). -/
structure MLItem where
  type : String
  value : List Char
  score : ℚ
  start : Nat
  stop : Option Nat
  source : String
  confidence : ℚ
  deriving DecidableEq, Repr

/-- Step 3 of the handler: confidence floor (strict `>`), positioned spans
only, plausibility checks, then formatting.  Every entity surviving the
`start` filter has a position, which `filterMap` extracts. -/
def filterStep3 (grouped : List Entity) : List MLItem :=
  (((grouped.filter fun e => decide (getMinConfidence e.type < e.score)).filter
    fun e => e.start.isSome).filter plausibleEntity).filterMap fun e =>
      e.start.map fun s =>
        { type := e.type, value := e.word, score := e.score, start := s,
          stop := e.stop, source := "ml", confidence := e.score }

/-- The full `detectMLOffscreen` handler over an abstract per-chunk
classifier (a failed chunk contributes the empty token list). -/
def detectMLOffscreen (text : List Char) (classify : List Char → List RawToken) :
    List MLItem :=
  let chunks := chunkTextJS text
  let allResults := (chunks.map fun c => (classify c.1).map (adjustToken c.1 c.2)).flatten
  let words := groupWords text allResults
  let grouped := mergeWords text words
  filterStep3 grouped

/-! ## Hybrid detection (`detectPIIHybrid`, ml-detector file) -/

/-- The hybrid (lower) confidence table of `detectPIIHybrid`. -/
def getMinConfidenceHybrid (entityType : String) : ℚ :=
  let type := stripLowerBI entityType
  if type = "socialnumber" then 0.70
  else if type = "driverlicense" then 0.65
  else if type = "passport" then 0.65
  else if type = "idcard" then 0.65
  else if type = "pass" then 0.70
  else if type = "givenname1" then 0.50
  else if type = "givenname2" then 0.50
  else if type = "lastname1" then 0.50
  else if type = "lastname2" then 0.50
  else if type = "lastname3" then 0.50
  else if type = "email" then 0.60
  else if type = "tel" then 0.55
  else if type = "ip" then 0.60
  else if type = "username" then 0.55
  else if type = "city" then 0.40
  else if type = "country" then 0.40
  else if type = "state" then 0.40
  else if type = "street" then 0.45
  else if type = "building" then 0.45
  else if type = "postcode" then 0.45
  else if type = "secaddress" then 0.45
  else if type = "geocoord" then 0.50
  else if type = "bod" then 0.45
  else if type = "date" then 0.40
  else if type = "time" then 0.40
  else if type = "title" then 0.40
  else if type = "sex" then 0.50
  else 0.45

/-- `mlItem.end <= item.index` under JS comparison semantics: comparing
`undefined` with a number is false. -/
def mlEndLEB (stop : Option Nat) (n : Nat) : Bool :=
  match stop with
  | some e => decide (e ≤ n)
  | none => false

/-- The item pushed for an accepted ML result. -/
def pushML (m : MLItem) : Item :=
  { type := m.type, value := m.value, index := m.start, source := "ml",
    confidence := m.score }

/-- One iteration of the ML phase of `detectPIIHybrid`: skip below the
type-specific floor, skip any result overlapping an already collected item
(regex items and previously added ML items alike), otherwise push. -/
def hybridStep (acc : List Item) (mlItem : MLItem) : List Item :=
  if mlItem.score < getMinConfidenceHybrid mlItem.type then acc
  else if acc.any fun item =>
      !(decide (item.index + item.value.length ≤ mlItem.start) || mlEndLEB mlItem.stop item.index)
    then acc
  else acc ++ [pushML mlItem]

/-- The ML phase of `detectPIIHybrid`, starting from the regex-collected
items. -/
def detectPIIHybridML (detectedItems : List Item) (mlResults : List MLItem) : List Item :=
  mlResults.foldl hybridStep detectedItems

end PII

namespace PII

/-! ## C7: entity merger -/

/-- C7: two consecutive words of the same mapped category with defined
offsets whose gap lies in `[0, 2]` are fused into one entity whose text is
re-sliced from the original text between the first word's start and the
second word's end, and whose score is the minimum of the two. -/
theorem entity_merger_fuses_adjacent
    (text wd1 wd2 : List Char) (en1 en2 : String) (sc1 sc2 : ℚ)
    (a b c d : Nat)
    (hty : mapEntityType en2 = mapEntityType en1)
    (hgap1 : b ≤ c) (hgap2 : c - b ≤ 2)
    (hne : substringJS text a d ≠ [])
    (htrim : (trimJS (substringJS text a d)).length > 0) :
    mergeWords text [⟨wd1, en1, sc1, some a, some b⟩, ⟨wd2, en2, sc2, some c, some d⟩] =
      [⟨en1, mapEntityType en1, substringJS text a d, min sc1 sc2, some a, some d⟩] := by
  simp [mergeWords, mergeStep, hty, hgap1, hgap2, hne, htrim]

/-- Word token "Jane" at offsets 8-12. -/
def wJane : RawToken := ⟨"Jane".data, "I-GIVENNAME", 0.9, some 8, some 12⟩

/-- Word token "Doe" at offsets 13-16. -/
def wDoe : RawToken := ⟨"Doe".data, "I-SURNAME", 0.8, some 13, some 16⟩

/-- C7 witness: `"Jane"` (8-12) and `"Doe"` (13-16), person category, with a
1-character gap fuse into a single 8-16 span with the minimum score. -/
theorem entity_merger_fuses_adjacent_witness :
    mergeWords "Contact Jane Doe".data [wJane, wDoe] =
      [⟨"I-GIVENNAME", mapEntityType "I-GIVENNAME",
        substringJS "Contact Jane Doe".data 8 16, min 0.9 0.8, some 8, some 16⟩] :=
  entity_merger_fuses_adjacent "Contact Jane Doe".data "Jane".data "Doe".data
    "I-GIVENNAME" "I-SURNAME" 0.9 0.8 8 12 13 16 (by decide) (by decide) (by decide)
    (by decide) (by decide)

/-! ## C8: offset recovery during token reassembly -/

theorem indexOfFrom_lower_bound {s needle : List Char} {start i : Nat}
    (hne : needle ≠ []) (h : indexOfFrom s needle start = some i) : start ≤ i := by
  unfold indexOfFrom at h
  rw [if_neg hne] at h
  have := List.find?_some h
  simp only [Bool.and_eq_true, decide_eq_true_eq] at this
  exact this.1

theorem mergeStep_start_isSome (text : List Char) (st : List Entity × Option Entity)
    (w : RawToken) (h : ∀ e ∈ st.1, e.start.isSome = true) :
    ∀ e ∈ (mergeStep text st w).1, e.start.isSome = true := by
  intro e he
  simp only [mergeStep] at he
  split at he
  · exact h e he
  · simp only [] at he
    split at he
    · rename_i cur hcur
      split at he
      · rename_i hs
        rcases List.mem_append.mp he with h' | h'
        · exact h e h'
        · simp only [List.mem_singleton] at h'
          exact h' ▸ hs
      · exact h e he
    · exact h e he

theorem mergeFold_start_isSome (text : List Char) :
    ∀ (words : List RawToken) (st : List Entity × Option Entity),
      (∀ e ∈ st.1, e.start.isSome = true) →
      ∀ e ∈ (words.foldl (mergeStep text) st).1, e.start.isSome = true := by
  intro words
  induction words with
  | nil => exact fun st h e he => h e he
  | cons w ws ih =>
    intro st h
    exact ih (mergeStep text st w) (mergeStep_start_isSome text st w h)

/-- C8 (amended): during grouping, a Word with missing offset is searched
in the full submitted text from the current search position onward and is
never relocated before it; Words that remain without a start offset are
never emitted by the entity merger (and the Step-3 filter also drops them).
The offset-adjustment step, however, searches the chunk text from position
0 (see the counterexample). -/
theorem missing_offset_search_anchored_unresolved_dropped :
    (∀ (text : List Char) (lastPos : Nat) (tok : RawToken) (i : Nat),
      tok.start = none → stripOnePrefix "##".data tok.word ≠ [] →
      (newWordFrom text lastPos tok).1.start = some i → lastPos ≤ i) ∧
    (∀ (text : List Char) (words : List RawToken),
      ∀ e ∈ mergeWords text words, e.start.isSome = true) := by
  constructor
  · intro text lastPos tok i hstart hclean hres
    unfold newWordFrom at hres
    rw [hstart] at hres
    simp only [Option.isNone_none, if_true] at hres
    rcases hfind : indexOfFrom text (stripOnePrefix "##".data tok.word) lastPos with _ | j
    · rw [hfind] at hres
      simp only [hstart] at hres
      cases hres
    · rw [hfind] at hres
      simp only [Option.some.injEq] at hres
      exact hres ▸ indexOfFrom_lower_bound hclean hfind
  · intro text words e he
    simp only [mergeWords] at he
    split at he
    · rename_i cur hcur
      split at he
      · rename_i hcond
        rcases List.mem_append.mp he with h' | h'
        · exact mergeFold_start_isSome text words ([], none) (by simp) e h'
        · simp only [List.mem_singleton] at h'
          subst h'
          exact hcond.1
      · exact mergeFold_start_isSome text words ([], none) (by simp) e he
    · exact mergeFold_start_isSome text words ([], none) (by simp) e he

/-- C8 witness: a missing-offset token searched from position 3 resolves at
position 3 (not earlier), and the single merged entity emitted for a
resolved word has a present start offset. -/
theorem missing_offset_search_anchored_unresolved_dropped_witness :
    (3 : Nat) ≤ 3 ∧
    (⟨"I-GIVENNAME", "person", "Jane".data, 1, some 8, some 12⟩ : Entity).start.isSome = true := by
  constructor
  · exact missing_offset_search_anchored_unresolved_dropped.1 "ab ab".data 3
      ⟨"ab".data, "X", 1, none, none⟩ 3 rfl (by decide) (by decide)
  · exact missing_offset_search_anchored_unresolved_dropped.2
      "Contact Jane Doe".data [⟨"Jane".data, "I-GIVENNAME", 1, some 8, some 12⟩]
      ⟨"I-GIVENNAME", "person", "Jane".data, 1, some 8, some 12⟩ (by decide)

/-- C8 counterexample: a token with valid offsets 3-5 is followed by a
token with missing offsets whose word also occurs at position 0; the
offset-adjustment step locates it by an unanchored chunk-text search at
position 0, i.e. before the end offset (5) of the previously resolved
word, contradicting the claimed never-earlier search. -/
theorem missing_offset_relocated_earlier_cex :
    groupWords "ab ab".data
      ([⟨"ab".data, "I-GIVENNAME", 1, some 3, some 5⟩,
        ⟨"ab".data, "I-SURNAME", 1, none, none⟩].map (adjustToken "ab ab".data 0)) =
      [⟨"ab".data, "I-GIVENNAME", 1, some 3, some 5⟩,
       ⟨"ab".data, "I-SURNAME", 1, some 0, some 2⟩] := by
  decide

/-! ## C9: the phone plausibility filter -/

/-- C9 (code bug): the pipeline maps the classifier label for telephone
numbers to the category `"phone"`, but the plausibility filter and the
0.90 confidence floor only ever test for the category `"tel"`; a phone
span with value `"555-"` (3 digits, trailing separator) and score 0.95 is
therefore kept by Step 3, although the same value is rejected by the
(dead) `"tel"` branch the filter was written for. -/
theorem phone_tel_filter_mismatch :
    mapEntityType "I-TELEPHONENUM" = "phone" ∧
    filterStep3 [⟨"I-TELEPHONENUM", "phone", "555-".data, 0.95, some 8, some 12⟩] =
      [⟨"phone", "555-".data, 0.95, 8, some 12, "ml", 0.95⟩] ∧
    plausibleEntity ⟨"I-TELEPHONENUM", "tel", "555-".data, 0.95, some 8, some 12⟩ = false := by
  refine ⟨rfl, ?_, rfl⟩
  have hc : getMinConfidence "phone" < (0.95 : ℚ) := by
    rw [show getMinConfidence "phone" = 0.60 from rfl]
    norm_num
  have hdec : decide (getMinConfidence "phone" < (0.95 : ℚ)) = true := decide_eq_true hc
  have hp : plausibleEntity
      ⟨"I-TELEPHONENUM", "phone", "555-".data, 0.95, some 8, some 12⟩ = true := rfl
  simp [filterStep3, hdec, hp]

/-! ## C10: hybrid combination -/

theorem hybridFold_extends (R : List Item) :
    ∀ (ms : List MLItem) (C : Item → Prop) (ex : List Item),
      (∀ x ∈ ex, C x) →
      ∃ ex', List.foldl hybridStep (R ++ ex) ms = R ++ ex' ∧
        ∀ x ∈ ex', C x ∨ ∃ m ∈ ms, x = pushML m ∧
          ∀ r ∈ R, r.index + r.value.length ≤ m.start ∨ mlEndLEB m.stop r.index = true := by
  intro ms
  induction ms with
  | nil => exact fun C ex h => ⟨ex, rfl, fun x hx => Or.inl (h x hx)⟩
  | cons m ms ih =>
    intro C ex h
    simp only [List.foldl_cons]
    by_cases h1 : m.score < getMinConfidenceHybrid m.type
    · rw [hybridStep, if_pos h1]
      obtain ⟨ex', he, hp⟩ := ih C ex h
      refine ⟨ex', he, fun x hx => ?_⟩
      rcases hp x hx with hc | ⟨m', hm', hsh⟩
      · exact Or.inl hc
      · exact Or.inr ⟨m', List.mem_cons_of_mem _ hm', hsh⟩
    · rw [hybridStep, if_neg h1]
      by_cases h2 : ((R ++ ex).any fun item =>
          !(decide (item.index + item.value.length ≤ m.start) || mlEndLEB m.stop item.index)) = true
      · rw [if_pos h2]
        obtain ⟨ex', he, hp⟩ := ih C ex h
        refine ⟨ex', he, fun x hx => ?_⟩
        rcases hp x hx with hc | ⟨m', hm', hsh⟩
        · exact Or.inl hc
        · exact Or.inr ⟨m', List.mem_cons_of_mem _ hm', hsh⟩
      · rw [if_neg h2]
        have h2' : ∀ x ∈ R ++ ex,
            (decide (x.index + x.value.length ≤ m.start) || mlEndLEB m.stop x.index) = true := by
          intro x hx
          rcases hb : (decide (x.index + x.value.length ≤ m.start) ||
              mlEndLEB m.stop x.index) with _ | _
          · exact absurd (List.any_eq_true.mpr ⟨x, hx, by rw [hb]; rfl⟩) h2
          · rfl
        have hnov : ∀ r ∈ R,
            r.index + r.value.length ≤ m.start ∨ mlEndLEB m.stop r.index = true := by
          intro r hr
          rcases Bool.or_eq_true_iff.mp (h2' r (List.mem_append_left _ hr)) with hx | hx
          · exact Or.inl (of_decide_eq_true hx)
          · exact Or.inr hx
        obtain ⟨ex', he, hp⟩ := ih
          (fun x => C x ∨ (x = pushML m ∧
            ∀ r ∈ R, r.index + r.value.length ≤ m.start ∨ mlEndLEB m.stop r.index = true))
          (ex ++ [pushML m])
          (by
            intro x hx
            rcases List.mem_append.mp hx with h' | h'
            · exact Or.inl (h x h')
            · simp only [List.mem_singleton] at h'
              exact Or.inr ⟨h', hnov⟩)
        rw [← List.append_assoc] at he
        refine ⟨ex', he, fun x hx => ?_⟩
        rcases hp x hx with (hc | ⟨heq, hprop⟩) | ⟨m', hm', hsh⟩
        · exact Or.inl hc
        · exact Or.inr ⟨m, List.mem_cons_self _ _, heq, hprop⟩
        · exact Or.inr ⟨m', List.mem_cons_of_mem _ hm', hsh⟩

/-- C10: the hybrid combiner returns the regex items followed by extra
model items, and every extra model item originates from an ML result that
character-overlaps no regex-sourced item — pattern spans win all overlaps,
with no influence of the model span's confidence. -/
theorem hybrid_pattern_spans_win_overlaps :
    ∀ (regexItems : List Item) (mlResults : List MLItem),
      ∃ extra, detectPIIHybridML regexItems mlResults = regexItems ++ extra ∧
        ∀ x ∈ extra, ∃ m ∈ mlResults, x = pushML m ∧
          ∀ r ∈ regexItems,
            r.index + r.value.length ≤ m.start ∨ mlEndLEB m.stop r.index = true := by
  intro R ms
  obtain ⟨ex', he, hp⟩ := hybridFold_extends R ms (fun _ => False) [] (by simp)
  refine ⟨ex', by simpa [detectPIIHybridML] using he, fun x hx => ?_⟩
  rcases hp x hx with hf | hsh
  · exact hf.elim
  · exact hsh

/-- C10 witness: the combiner applied to one regex item and one
overlapping high-confidence ML result. -/
theorem hybrid_pattern_spans_win_overlaps_witness :
    ∃ extra, detectPIIHybridML [emailItemA]
        [⟨"person", "a@b".data, 0.99, 0, some 3, "ml", 0.99⟩] = [emailItemA] ++ extra ∧
      ∀ x ∈ extra, ∃ m ∈ [(⟨"person", "a@b".data, 0.99, 0, some 3, "ml", 0.99⟩ : MLItem)],
        x = pushML m ∧ ∀ r ∈ [emailItemA],
          r.index + r.value.length ≤ m.start ∨ mlEndLEB m.stop r.index = true :=
  hybrid_pattern_spans_win_overlaps [emailItemA]
    [⟨"person", "a@b".data, 0.99, 0, some 3, "ml", 0.99⟩]

end PII

namespace PII

/-! ## C4: placeholders never match any pattern -/

/-- The category names that can reach `generateMask` in this codebase: the
regex rule names of `PII_PATTERNS_ORDERED` plus the mapped classifier
categories produced by `mapEntityType`. -/
def knownCategories : List String :=
  ["ssn", "creditCard", "cvv", "policyNumber", "medicalRecord", "vin",
   "routingNumber", "bankAccount", "passport", "driversLicense", "email",
   "phone", "zipCode", "ipv4", "dateOfBirth", "titleName", "fullName",
   "organization", "account", "building", "location", "license", "person",
   "idCard", "password", "address", "taxId", "username", "zipcode", "none",
   "misc"]

/-- Characters that make a placeholder immune to the pattern table: not a
digit, not a lowercase letter, not `@`, not whitespace. -/
def placeholderSafe (c : Char) : Bool :=
  !(memRanges digitCls c) && !(memRanges [('a', 'z')] c) &&
  !(memRanges [('@', '@')] c) && !(memRanges spaceCls c)

/-- Every character the `vin` pattern can consume. -/
def vinAllowed : CRanges :=
  ('-', '-') :: (':', ':') :: ('A', 'Z') :: ('a', 'z') :: ('0', '9') :: spaceCls

/-- Bracket or underscore: the characters that break up a placeholder. -/
def badBr (c : Char) : Bool := c == '[' || c == ']' || c == '_'

/-- Length of the maximal prefix free of `bad` characters. -/
def cleanPrefixLen (bad : Char → Bool) : List Char → Nat
  | [] => 0
  | c :: r => if bad c then 0 else cleanPrefixLen bad r + 1

/-- Length of the longest `bad`-free run. -/
def maxCleanRun (bad : Char → Bool) : List Char → Nat
  | [] => 0
  | c :: r => max (cleanPrefixLen bad (c :: r)) (maxCleanRun bad r)

theorem prefix_clean_le {bad : Char → Bool} :
    ∀ {s t : List Char}, s <+: t → (∀ c ∈ s, bad c = false) →
      s.length ≤ cleanPrefixLen bad t := by
  intro s
  induction s with
  | nil => intro t _ _; simp
  | cons a s' ih =>
    intro t hp hclean
    obtain ⟨u, hu⟩ := hp
    subst hu
    have hba : bad a = false := hclean a (List.mem_cons_self _ _)
    simp only [cleanPrefixLen, hba, Bool.false_eq_true, if_false, List.length_cons,
      List.append_eq]
    have := ih (List.prefix_append s' u) fun c hc => hclean c (List.mem_cons_of_mem _ hc)
    omega

theorem cleanPrefixLen_le_max {bad : Char → Bool} :
    ∀ t : List Char, cleanPrefixLen bad t ≤ maxCleanRun bad t := by
  intro t
  cases t with
  | nil => simp [cleanPrefixLen, maxCleanRun]
  | cons c r => simp [maxCleanRun]

theorem maxCleanRun_le_cons {bad : Char → Bool} (c : Char) (t : List Char) :
    maxCleanRun bad t ≤ maxCleanRun bad (c :: t) := by
  simp [maxCleanRun]

theorem infix_clean_le {bad : Char → Bool} {s t : List Char}
    (h : s <:+: t) (hclean : ∀ c ∈ s, bad c = false) :
    s.length ≤ maxCleanRun bad t := by
  obtain ⟨u, v, huv⟩ := h
  induction u generalizing t with
  | nil =>
    simp only [List.nil_append] at huv
    subst huv
    exact le_trans (prefix_clean_le (List.prefix_append s v) hclean)
      (cleanPrefixLen_le_max _)
  | cons a u' ih =>
    cases t with
    | nil => simp at huv
    | cons b t' =>
      simp only [List.cons_append, List.cons.injEq] at huv
      exact le_trans (ih huv.2) (maxCleanRun_le_cons b t')

theorem infix_append_split {s a b : List Char} (h : s <:+: a ++ b) :
    s <:+: a ∨ s <:+: b ∨
      ∃ s1 s2, s = s1 ++ s2 ∧ s1 ≠ [] ∧ s2 ≠ [] ∧ s1 <:+ a ∧ s2 <+: b := by
  obtain ⟨t, u, htu⟩ := h
  have htu' : t ++ (s ++ u) = a ++ b := by simpa [List.append_assoc] using htu
  rcases List.append_eq_append_iff.mp htu' with ⟨a', ha, hb⟩ | ⟨c', ha, hb⟩
  · rcases List.append_eq_append_iff.mp hb with ⟨x, hx1, hx2⟩ | ⟨y, hy1, hy2⟩
    · left
      refine ⟨t, x, ?_⟩
      rw [ha, hx1]
      simp [List.append_assoc]
    · have hsufa : a' <:+ a := ⟨t, ha.symm⟩
      have hpreb : y <+: b := ⟨u, hy2.symm⟩
      by_cases ha' : a' = []
      · subst ha'
        simp only [List.nil_append] at hy1
        subst hy1
        exact Or.inr (Or.inl hpreb.isInfix)
      · by_cases hy : y = []
        · subst hy
          rw [List.append_nil] at hy1
          subst hy1
          exact Or.inl hsufa.isInfix
        · exact Or.inr (Or.inr ⟨a', y, hy1, ha', hy, hsufa, hpreb⟩)
  · right; left
    refine ⟨c', u, ?_⟩
    rw [hb]
    simp [List.append_assoc]

end PII

namespace PII

theorem mem_of_suffix_concat {s1 q : List Char} {c : Char}
    (h : s1 <:+ q ++ [c]) (hne : s1 ≠ []) : c ∈ s1 := by
  obtain ⟨t, ht⟩ := h
  have h1 : s1.getLast? = some c := by
    have h2 : (t ++ s1).getLast? = some c := by
      rw [ht, List.getLast?_concat]
    rwa [List.getLast?_append_of_ne_nil _ hne] at h2
  obtain ⟨hne', heq⟩ := List.mem_getLast?_eq_getLast (Option.mem_def.mpr h1)
  exact heq ▸ List.getLast_mem hne'

theorem infix_flatten_single {ps : List (List Char)} {s : List Char}
    (hshape : ∀ p ∈ ps, ∃ q, p = q ++ [']'])
    (hnb : ']' ∉ s) (hne : s ≠ []) (h : s <:+: ps.flatten) :
    ∃ p ∈ ps, s <:+: p := by
  induction ps with
  | nil =>
    simp only [List.flatten_nil] at h
    exact absurd (List.eq_nil_of_infix_nil h) hne
  | cons p rest ih =>
    simp only [List.flatten_cons] at h
    rcases infix_append_split h with h' | h' | ⟨s1, s2, hs, hs1, _, hsuf, _⟩
    · exact ⟨p, List.mem_cons_self _ _, h'⟩
    · obtain ⟨p', hp', hinf⟩ := ih (fun q hq => hshape q (List.mem_cons_of_mem _ hq)) h'
      exact ⟨p', List.mem_cons_of_mem _ hp', hinf⟩
    · obtain ⟨q, hq⟩ := hshape p (List.mem_cons_self _ _)
      rw [hq] at hsuf
      exact absurd (hs ▸ List.mem_append_left _ (mem_of_suffix_concat hsuf hs1)) hnb

theorem placeholderSafe_digit {c : Char} (h : placeholderSafe c = true) :
    memRanges digitCls c = false := by
  simp only [placeholderSafe, Bool.and_eq_true, Bool.not_eq_true'] at h
  exact h.1.1.1

theorem placeholderSafe_lower {c : Char} (h : placeholderSafe c = true) :
    memRanges [('a', 'z')] c = false := by
  simp only [placeholderSafe, Bool.and_eq_true, Bool.not_eq_true'] at h
  exact h.1.1.2

theorem placeholderSafe_at {c : Char} (h : placeholderSafe c = true) :
    memRanges [('@', '@')] c = false := by
  simp only [placeholderSafe, Bool.and_eq_true, Bool.not_eq_true'] at h
  exact h.1.2

theorem placeholderSafe_space {c : Char} (h : placeholderSafe c = true) :
    memRanges spaceCls c = false := by
  simp only [placeholderSafe, Bool.and_eq_true, Bool.not_eq_true'] at h
  exact h.2

theorem requires_no_match {r : Regex} {value : List Char} {tgt : CRanges}
    (hm : Matches r value) (hreq : requiresFrom tgt r = true)
    (hsub : ∀ c ∈ value, memRanges tgt c = false) : False := by
  obtain ⟨c, hc, hmem⟩ := requiresFrom_sound hm hreq
  rw [hsub c hc] at hmem
  cases hmem

theorem generateMask_shape (t : String) : ∃ q, generateMask t = q ++ [']'] := by
  unfold generateMask
  exact ⟨'[' :: (match labelMap t with
    | some l => l.data
    | none => "REDACTED_".data ++ toUpperJS t.data), by simp⟩

end PII

namespace PII

/-- C4: on any text that is a concatenation of placeholder tokens of the
known categories, no pattern of the ordered table matches anywhere (even
with word boundaries relaxed), so detection reports nothing and masking
with the resulting empty item list returns the text unchanged — masking is
idempotent on fully masked text. -/
theorem mask_idempotent_on_placeholder_text :
    ∀ cats : List String, (∀ c ∈ cats, c ∈ knownCategories) →
      (∀ it : Item, ¬ IsRegexDetection ((cats.map generateMask).flatten) it) ∧
      (∀ store : Store, maskDetectedPII ((cats.map generateMask).flatten) [] store =
        ((cats.map generateMask).flatten, store)) := by
  intro cats hcats
  have hsafe : ∀ c ∈ (cats.map generateMask).flatten, placeholderSafe c = true := by
    intro c hc
    obtain ⟨p, hp, hcp⟩ := List.mem_flatten.mp hc
    obtain ⟨t, ht, rfl⟩ := List.mem_map.mp hp
    have hall : knownCategories.all (fun t => (generateMask t).all placeholderSafe) = true := by
      decide
    exact List.all_eq_true.mp (List.all_eq_true.mp hall t (hcats t ht)) c hcp
  constructor
  · rintro it ⟨p, hp, _, _, _, hm, pre, post, heq, _⟩
    have hvalT : ∀ c ∈ it.value, c ∈ (cats.map generateMask).flatten := by
      intro c hc
      rw [heq]
      exact List.mem_append_left _ (List.mem_append_right _ hc)
    have hdig : ∀ c ∈ it.value, memRanges digitCls c = false :=
      fun c hc => placeholderSafe_digit (hsafe c (hvalT c hc))
    have hlow : ∀ c ∈ it.value, memRanges [('a', 'z')] c = false :=
      fun c hc => placeholderSafe_lower (hsafe c (hvalT c hc))
    have hat : ∀ c ∈ it.value, memRanges [('@', '@')] c = false :=
      fun c hc => placeholderSafe_at (hsafe c (hvalT c hc))
    have hsp : ∀ c ∈ it.value, memRanges spaceCls c = false :=
      fun c hc => placeholderSafe_space (hsafe c (hvalT c hc))
    have hinf : it.value <:+: (cats.map generateMask).flatten := ⟨pre, post, heq.symm⟩
    simp only [PII_PATTERNS_ORDERED, List.mem_cons, List.not_mem_nil, or_false] at hp
    rcases hp with rfl|rfl|rfl|rfl|rfl|rfl|rfl|rfl|rfl|rfl|rfl|rfl|rfl|rfl|rfl|rfl|rfl|rfl
    · exact requires_no_match hm (by decide) hdig
    · exact requires_no_match hm (by decide) hdig
    · exact requires_no_match hm (by decide) hdig
    · exact requires_no_match hm (by decide) hdig
    · exact requires_no_match hm (by decide) hdig
    · -- vin: no digit is forced, instead every match is 17 characters of
      -- bracket- and underscore-free text, longer than any clean run of a
      -- placeholder concatenation
      have hallw : ∀ c ∈ it.value, memRanges vinAllowed c = true :=
        allWithin_sound hm (by decide)
      have h17 : minLen ("vin", vinR).2 = 17 := by decide
      have hlen : 17 ≤ it.value.length := h17 ▸ minLen_sound hm
      have hne : it.value ≠ [] := by
        intro hnil
        rw [hnil] at hlen
        simp at hlen
      have hclean : ∀ c ∈ it.value, badBr c = false := by
        intro c hc
        have hv := hallw c hc
        by_contra hb
        simp only [badBr, Bool.or_eq_true, beq_iff_eq, Bool.not_eq_false] at hb
        rcases hb with (rfl | rfl) | rfl
        · exact absurd hv (by decide)
        · exact absurd hv (by decide)
        · exact absurd hv (by decide)
      have hnb : ']' ∉ it.value := by
        intro hmem
        have := hclean ']' hmem
        simp [badBr] at this
      obtain ⟨p', hp', hinfp⟩ := infix_flatten_single
        (by
          intro q hq
          obtain ⟨t, _, rfl⟩ := List.mem_map.mp hq
          exact generateMask_shape t)
        hnb hne hinf
      obtain ⟨t, ht, rfl⟩ := List.mem_map.mp hp'
      have hrun : maxCleanRun badBr (generateMask t) ≤ 12 := by
        have hall2 : knownCategories.all
            (fun t => decide (maxCleanRun badBr (generateMask t) ≤ 12)) = true := by decide
        exact of_decide_eq_true (List.all_eq_true.mp hall2 t (hcats t ht))
      have := infix_clean_le hinfp hclean
      omega
    · exact requires_no_match hm (by decide) hdig
    · exact requires_no_match hm (by decide) hdig
    · exact requires_no_match hm (by decide) hdig
    · exact requires_no_match hm (by decide) hdig
    · exact requires_no_match hm (by decide) hat
    · exact requires_no_match hm (by decide) hdig
    · exact requires_no_match hm (by decide) hdig
    · exact requires_no_match hm (by decide) hdig
    · exact requires_no_match hm (by decide) hdig
    · exact requires_no_match hm (by decide) hlow
    · exact requires_no_match hm (by decide) hlow
    · exact requires_no_match hm (by decide) hsp
  · intro store
    simp [maskDetectedPII, maskDetectedPIISt]

/-- C4 witness: instantiating the idempotence theorem on the concatenation
of an email and a phone placeholder. -/
theorem mask_idempotent_on_placeholder_text_witness :
    ¬ IsRegexDetection ((["email", "phone"].map generateMask).flatten) emailItemA ∧
    maskDetectedPII ((["email", "phone"].map generateMask).flatten) [] [] =
      ((["email", "phone"].map generateMask).flatten, []) :=
  ⟨(mask_idempotent_on_placeholder_text ["email", "phone"] (by decide)).1 emailItemA,
   (mask_idempotent_on_placeholder_text ["email", "phone"] (by decide)).2 []⟩

end PII

namespace PII

/-! ## C1: round-trip machinery -/

/-- Text free of the bracket characters used by placeholder tokens. -/
def bfree (s : List Char) : Prop := ∀ c ∈ s, c ≠ '[' ∧ c ≠ ']'

/-- The label part of `generateMask`. -/
def labelOf (t : String) : List Char :=
  match labelMap t with
  | some l => l.data
  | none => "REDACTED_".data ++ toUpperJS t.data

theorem generateMask_eq (t : String) : generateMask t = '[' :: labelOf t ++ [']'] := rfl

/-- The placeholder of an item's category. -/
def maskOf (it : Item) : List Char := generateMask it.type

theorem replaceAll_nil (k v : List Char) : replaceAll k v [] = [] := by
  rw [replaceAll]

theorem replaceAll_cons_neg {k v : List Char} {c : Char} {rest : List Char}
    (h : ¬(k ≠ [] ∧ k.isPrefixOf (c :: rest))) :
    replaceAll k v (c :: rest) = c :: replaceAll k v rest := by
  rw [replaceAll, dif_neg h]

theorem replaceAll_cons_pos {k v : List Char} {c : Char} {rest : List Char}
    (h : k ≠ [] ∧ k.isPrefixOf (c :: rest)) :
    replaceAll k v (c :: rest) = v ++ replaceAll k v ((c :: rest).drop k.length) := by
  rw [replaceAll, dif_pos h]

theorem isPrefixOf_cons_false {k' rest : List Char} {c : Char} (hc : c ≠ '[') :
    ('[' :: k').isPrefixOf (c :: rest) = false := by
  simp [List.isPrefixOf, Ne.symm hc]

theorem isPrefixOf_append_self (k l : List Char) : k.isPrefixOf (k ++ l) = true := by
  rw [List.isPrefixOf_iff_prefix]
  exact List.prefix_append k l

theorem replaceAll_skip_bfree {k' v : List Char} :
    ∀ {p rest : List Char}, bfree p →
      replaceAll ('[' :: k') v (p ++ rest) = p ++ replaceAll ('[' :: k') v rest := by
  intro p
  induction p with
  | nil => intro rest _; simp
  | cons c p' ih =>
    intro rest hp
    have hc : c ≠ '[' := (hp c (List.mem_cons_self _ _)).1
    rw [List.cons_append, replaceAll_cons_neg (by
      rintro ⟨_, hpre⟩
      rw [isPrefixOf_cons_false hc] at hpre
      cases hpre)]
    rw [ih fun c hc' => hp c (List.mem_cons_of_mem _ hc')]
    simp

theorem replaceAll_bfree {k' v : List Char} {s : List Char} (hs : bfree s) :
    replaceAll ('[' :: k') v s = s := by
  have := @replaceAll_skip_bfree k' v s [] hs
  simpa [replaceAll_nil] using this

theorem replaceAll_at_head {k v rest : List Char} (hk : k ≠ []) (hb : bfree rest) 
    (hk' : ∃ k', k = '[' :: k') :
    replaceAll k v (k ++ rest) = v ++ rest := by
  obtain ⟨k', rfl⟩ := hk'
  rw [show ('[' :: k') ++ rest = '[' :: (k' ++ rest) from rfl]
  rw [replaceAll_cons_pos ⟨hk, by
    rw [show ('[' :: (k' ++ rest)) = ('[' :: k') ++ rest from rfl]
    exact isPrefixOf_append_self _ _⟩]
  rw [show ('[' :: (k' ++ rest)) = ('[' :: k') ++ rest from rfl, List.drop_left]
  rw [replaceAll_bfree hb]

end PII

namespace PII

theorem tag_concat_not_prefix :
    ∀ (tg tg' rest : List Char), ']' ∉ tg → ']' ∉ tg' → tg ≠ tg' →
      (tg ++ [']']).isPrefixOf (tg' ++ (']' :: rest)) = false := by
  intro tg
  induction tg with
  | nil =>
    intro tg' rest _ hfree' hne
    cases tg' with
    | nil => exact absurd rfl hne
    | cons c tg'' =>
      have hc : c ≠ ']' := fun h => hfree' (h ▸ List.mem_cons_self _ _)
      simp [List.isPrefixOf, Ne.symm hc]
  | cons a tg₁ ih =>
    intro tg' rest hfree hfree' hne
    have ha : a ≠ ']' := fun h => hfree (h ▸ List.mem_cons_self _ _)
    cases tg' with
    | nil =>
      simp [List.isPrefixOf, ha]
    | cons c tg₁' =>
      by_cases hac : a = c
      · subst hac
        have hne' : tg₁ ≠ tg₁' := fun h => hne (by rw [h])
        have hfree1 : ']' ∉ tg₁ := fun h => hfree (List.mem_cons_of_mem _ h)
        have hfree1' : ']' ∉ tg₁' := fun h => hfree' (List.mem_cons_of_mem _ h)
        simpa [List.isPrefixOf] using ih tg₁' rest hfree1 hfree1' hne'
      · simp [List.isPrefixOf, hac]

/-- Canonical shape of a placeholder: opening bracket, tag, closing bracket. -/
def mkMask (tg : List Char) : List Char := '[' :: (tg ++ [']'])

theorem generateMask_mkMask (t : String) : generateMask t = mkMask (labelOf t) := rfl

theorem mask_not_prefix_mask {tg tg' rest : List Char}
    (hfree : ']' ∉ tg) (hfree' : ']' ∉ tg') (hne : tg ≠ tg') :
    (mkMask tg).isPrefixOf (mkMask tg' ++ rest) = false := by
  have h1 : mkMask tg' ++ rest = '[' :: (tg' ++ (']' :: rest)) := by simp [mkMask]
  rw [h1]
  simpa [mkMask, List.isPrefixOf] using tag_concat_not_prefix tg tg' rest hfree hfree' hne

theorem replaceAll_skip_mask {tg tg' v rest : List Char}
    (hfree : ']' ∉ tg) (hfreeB : bfree tg') (hne : tg ≠ tg') :
    replaceAll (mkMask tg) v (mkMask tg' ++ rest) =
      mkMask tg' ++ replaceAll (mkMask tg) v rest := by
  have hfreeBR : ']' ∉ tg' := fun h => (hfreeB ']' h).2 rfl
  have h1 : mkMask tg' ++ rest = '[' :: (tg' ++ (']' :: rest)) := by simp [mkMask]
  rw [h1, replaceAll_cons_neg (by
    rintro ⟨_, hpre⟩
    rw [show ('[' :: (tg' ++ (']' :: rest))) = mkMask tg' ++ rest by simp [mkMask],
      mask_not_prefix_mask hfree hfreeBR hne] at hpre
    cases hpre)]
  rw [show replaceAll (mkMask tg) v (tg' ++ (']' :: rest)) =
      tg' ++ replaceAll (mkMask tg) v (']' :: rest) from replaceAll_skip_bfree hfreeB]
  rw [replaceAll_cons_neg (by
    rintro ⟨_, hpre⟩
    rw [show mkMask tg = '[' :: (tg ++ [']']) from rfl,
      isPrefixOf_cons_false (by decide)] at hpre
    cases hpre)]
  simp [mkMask]

end PII

namespace PII

/-- A masked text: bracket-free segments interleaved with placeholder
masks, the masks listed left to right. -/
inductive Inter : List (List Char) → List Char → Prop where
  | nil {s} : bfree s → Inter [] s
  | cons {s m ms r} : bfree s → Inter ms r → Inter (m :: ms) (s ++ m ++ r)

theorem inter_append {ms : List (List Char)} {A : List Char}
    (h : Inter ms A) {m b : List Char} (hb : bfree b) :
    Inter (ms ++ [m]) (A ++ m ++ b) := by
  induction h with
  | nil hs => exact Inter.cons hs (Inter.nil hb)
  | cons hs hr ih =>
    rename_i s m' ms' r
    have : s ++ m' ++ r ++ m ++ b = s ++ m' ++ (r ++ m ++ b) := by simp [List.append_assoc]
    rw [this]
    exact Inter.cons hs ih

theorem replaceAll_mk_skip_bfree {tg v p rest : List Char} (hp : bfree p) :
    replaceAll (mkMask tg) v (p ++ rest) = p ++ replaceAll (mkMask tg) v rest :=
  replaceAll_skip_bfree hp

theorem replaceAll_mk_at_head {tg v rest : List Char} (hb : bfree rest) :
    replaceAll (mkMask tg) v (mkMask tg ++ rest) = v ++ rest :=
  replaceAll_at_head (by simp [mkMask]) hb ⟨tg ++ [']'], rfl⟩

theorem occSkip {tg v : List Char} (hfreeT : bfree tg) :
    ∀ {ms : List (List Char)} {A : List Char}, Inter ms A →
      (∀ m' ∈ ms, ∃ tg', m' = mkMask tg' ∧ bfree tg' ∧ tg' ≠ tg) →
      ∀ {B : List Char}, bfree B →
      replaceAll (mkMask tg) v (A ++ mkMask tg ++ B) = A ++ v ++ B := by
  have hfreeR : ']' ∉ tg := fun h => (hfreeT ']' h).2 rfl
  intro ms A hint
  induction hint with
  | nil hs =>
    intro _ B hB
    rename_i s
    rw [List.append_assoc, replaceAll_mk_skip_bfree hs, replaceAll_mk_at_head hB]
    simp
  | cons hs hr ih =>
    intro hms B hB
    rename_i s m' ms' r
    obtain ⟨tg', rfl, hfree', hne'⟩ := hms m' (List.mem_cons_self _ _)
    have h1 : s ++ mkMask tg' ++ r ++ mkMask tg ++ B
        = s ++ (mkMask tg' ++ (r ++ mkMask tg ++ B)) := by simp [List.append_assoc]
    rw [h1, replaceAll_mk_skip_bfree hs,
      replaceAll_skip_mask hfreeR hfree' (fun h => hne' (h ▸ rfl))]
    rw [ih (fun m hm => hms m (List.mem_cons_of_mem _ hm)) hB]
    simp [List.append_assoc]

end PII

namespace PII

theorem bfree_append {a b : List Char} (ha : bfree a) (hb : bfree b) : bfree (a ++ b) := by
  intro c hc
  rcases List.mem_append.mp hc with h | h
  · exact ha c h
  · exact hb c h

theorem bfree_take {a : List Char} (ha : bfree a) (n : Nat) : bfree (a.take n) :=
  fun c hc => ha c (List.mem_of_mem_take hc)

theorem bfree_drop {a : List Char} (ha : bfree a) (n : Nat) : bfree (a.drop n) :=
  fun c hc => ha c (List.mem_of_mem_drop hc)

theorem bfree_substringJS {a : List Char} (ha : bfree a) (i j : Nat) :
    bfree (substringJS a i j) := by
  unfold substringJS
  exact bfree_take (bfree_drop ha _) _

theorem substringJS_take {t : List Char} {j n i : Nat}
    (hji : j + n ≤ i) (hit : i ≤ t.length) :
    substringJS (t.take i) j (j + n) = substringJS t j (j + n) := by
  rw [substringJS_of_le (by simpa [List.length_take] using by omega),
    substringJS_of_le (by omega)]
  rw [List.drop_take]
  rw [List.take_take]
  congr 1
  omega

/-- Descending-order, pairwise-disjoint item lists with nonempty values:
every later item ends at or before the head item's start. -/
theorem desc_disjoint_bounds {x : Item} {rest : List Item}
    (hsorted : List.Pairwise geIdx (x :: rest))
    (hdisj : List.Pairwise (fun a b => ¬ overlapsP a b) (x :: rest))
    (hne : ∀ y ∈ x :: rest, y.value ≠ []) :
    ∀ y ∈ rest, y.index + y.value.length ≤ x.index := by
  intro y hy
  have h1 : geIdx x y := (List.pairwise_cons.mp hsorted).1 y hy
  have h2 : ¬ overlapsP x y := (List.pairwise_cons.mp hdisj).1 y hy
  have h3 : y.value ≠ [] := hne y (List.mem_cons_of_mem _ hy)
  have h4 : x.value ≠ [] := hne x (List.mem_cons_self _ _)
  unfold overlapsP at h2
  unfold geIdx at h1
  push_neg at h2
  rcases h2 with h2 | h2
  · have : 0 < x.value.length := List.length_pos.mpr h4
    omega
  · exact h2

/-- The text component of the replacement fold over a text with a suffix
that no item reaches is the fold over the prefix followed by the suffix. -/
theorem maskFold_text_append :
    ∀ (its : List Item) (a b : List Char) (s : Store) (ap : List Item),
      List.Pairwise geIdx its →
      List.Pairwise (fun x y => ¬ overlapsP x y) its →
      (∀ y ∈ its, y.value ≠ []) →
      (∀ y ∈ its, y.index + y.value.length ≤ a.length) →
      (its.foldl maskStep ⟨a ++ b, s, ap⟩).text =
        (its.foldl maskStep ⟨a, s, ap⟩).text ++ b := by
  intro its
  induction its with
  | nil => intro a b s ap _ _ _ _; rfl
  | cons x rest ih =>
    intro a b s ap hsorted hdisj hne hbound
    have hx : x.index + x.value.length ≤ a.length := hbound x (List.mem_cons_self _ _)
    have hrest : ∀ y ∈ rest, y.index + y.value.length ≤ x.index :=
      desc_disjoint_bounds hsorted hdisj hne
    have hsub : substringJS (a ++ b) x.index (x.index + x.value.length) =
        substringJS a x.index (x.index + x.value.length) :=
      substringJS_append_left hx
    simp only [List.foldl_cons, maskStep, hsub]
    by_cases hv : substringJS a x.index (x.index + x.value.length) = x.value
    · rw [if_pos hv, if_pos hv]
      have htake : (a ++ b).take x.index = a.take x.index :=
        List.take_append_of_le_length (by omega)
      have hdrop : (a ++ b).drop (x.index + x.value.length) =
          a.drop (x.index + x.value.length) ++ b :=
        List.drop_append_of_le_length hx
      rw [htake, hdrop]
      have hshape : a.take x.index ++ maskOf x ++ (a.drop (x.index + x.value.length) ++ b)
          = (a.take x.index ++ maskOf x ++ a.drop (x.index + x.value.length)) ++ b := by
        simp [List.append_assoc]
      rw [show a.take x.index ++ generateMask x.type ++ (a.drop (x.index + x.value.length) ++ b)
          = (a.take x.index ++ generateMask x.type ++ a.drop (x.index + x.value.length)) ++ b by
        simp [List.append_assoc]]
      apply ih
      · exact (List.pairwise_cons.mp hsorted).2
      · exact (List.pairwise_cons.mp hdisj).2
      · exact fun y hy => hne y (List.mem_cons_of_mem _ hy)
      · intro y hy
        have := hrest y hy
        simp only [List.length_append, List.length_take]
        omega
    · rw [if_neg hv, if_neg hv]
      apply ih
      · exact (List.pairwise_cons.mp hsorted).2
      · exact (List.pairwise_cons.mp hdisj).2
      · exact fun y hy => hne y (List.mem_cons_of_mem _ hy)
      · intro y hy
        have := hrest y hy
        omega

end PII

namespace PII

theorem maskFold_store (its : List Item) :
    ∀ (st : MaskSt),
      (its.foldl maskStep st).store =
        its.foldl (fun s it => setEntry s (maskOf it) it.value) st.store := by
  induction its with
  | nil => intro st; rfl
  | cons x rest ih =>
    intro st
    simp only [List.foldl_cons]
    have hstep : (maskStep st x).store = setEntry st.store (maskOf x) x.value := by
      simp only [maskStep, maskOf]
      split
      · rfl
      · rfl
    rw [ih, hstep]

theorem setFold_shape (its : List Item) :
    ∀ (m : Store),
      (∀ y ∈ its, ∀ e ∈ m, e.1 ≠ maskOf y) →
      List.Pairwise (fun a b => maskOf a ≠ maskOf b) its →
      its.foldl (fun s it => setEntry s (maskOf it) it.value) m =
        m ++ its.map fun it => (maskOf it, it.value) := by
  induction its with
  | nil => intro m _ _; simp
  | cons x rest ih =>
    intro m hnew hdist
    simp only [List.foldl_cons]
    rw [setEntry_key_new fun e he => hnew x (List.mem_cons_self _ _) e he]
    rw [ih (m ++ [(maskOf x, x.value)])
      (by
        intro y hy e he
        rcases List.mem_append.mp he with h' | h'
        · exact hnew y (List.mem_cons_of_mem _ hy) e h'
        · simp only [List.mem_singleton] at h'
          subst h'
          exact (List.pairwise_cons.mp hdist).1 y hy)
      (List.pairwise_cons.mp hdist).2]
    simp

theorem maskFold_inter (its : List Item) :
    ∀ (a : List Char) (s : Store) (ap : List Item),
      List.Pairwise geIdx its →
      List.Pairwise (fun x y => ¬ overlapsP x y) its →
      (∀ y ∈ its, y.value ≠ []) →
      (∀ y ∈ its, substringJS a y.index (y.index + y.value.length) = y.value ∧
        y.index + y.value.length ≤ a.length) →
      bfree a →
      Inter ((its.map maskOf).reverse) ((its.foldl maskStep ⟨a, s, ap⟩).text) := by
  induction its with
  | nil => intro a s ap _ _ _ _ ha; exact Inter.nil ha
  | cons x rest ih =>
    intro a s ap hsorted hdisj hne hvalid ha
    obtain ⟨hvx, hxb⟩ := hvalid x (List.mem_cons_self _ _)
    have hi : x.index ≤ a.length := by omega
    have hrest : ∀ y ∈ rest, y.index + y.value.length ≤ x.index :=
      desc_disjoint_bounds hsorted hdisj hne
    have hstep : maskStep ⟨a, s, ap⟩ x =
        ⟨a.take x.index ++ maskOf x ++ a.drop (x.index + x.value.length),
         setEntry s (maskOf x) x.value, ap ++ [x]⟩ := by
      simp only [maskStep, maskOf, hvx]
      rfl
    simp only [List.foldl_cons, hstep]
    have htail := (List.pairwise_cons.mp hsorted).2
    have hdtail := (List.pairwise_cons.mp hdisj).2
    have hnetail : ∀ y ∈ rest, y.value ≠ [] := fun y hy => hne y (List.mem_cons_of_mem _ hy)
    have hboundtail : ∀ y ∈ rest, y.index + y.value.length ≤ (a.take x.index).length := by
      intro y hy
      simp only [List.length_take]
      have := hrest y hy
      omega
    have hsplit := maskFold_text_append rest (a.take x.index)
      (maskOf x ++ a.drop (x.index + x.value.length))
      (setEntry s (maskOf x) x.value) (ap ++ [x]) htail hdtail hnetail hboundtail
    have hshape : a.take x.index ++ maskOf x ++ a.drop (x.index + x.value.length)
        = a.take x.index ++ (maskOf x ++ a.drop (x.index + x.value.length)) := by
      simp [List.append_assoc]
    rw [hshape, hsplit]
    have hIH := ih (a.take x.index) (setEntry s (maskOf x) x.value) (ap ++ [x])
      htail hdtail hnetail
      (by
        intro y hy
        obtain ⟨hv, hb⟩ := hvalid y (List.mem_cons_of_mem _ hy)
        have hyx := hrest y hy
        constructor
        · rw [substringJS_take hyx hi]
          exact hv
        · simp only [List.length_take]
          omega)
      (bfree_take ha _)
    have hmasks : ((x :: rest).map maskOf).reverse
        = (rest.map maskOf).reverse ++ [maskOf x] := by simp
    rw [hmasks, ← List.append_assoc]
    exact inter_append hIH (bfree_drop ha _)

end PII

namespace PII

theorem mkMask_inj {a b : List Char} (h : mkMask a = mkMask b) : a = b := by
  simp only [mkMask, List.cons.injEq, true_and] at h
  exact List.append_cancel_right h

theorem unmask_maskFold (its : List Item) :
    ∀ (t S : List Char) (s : Store) (ap : List Item),
      List.Pairwise geIdx its →
      List.Pairwise (fun x y => ¬ overlapsP x y) its →
      (∀ y ∈ its, y.value ≠ []) →
      (∀ y ∈ its, substringJS t y.index (y.index + y.value.length) = y.value ∧
        y.index + y.value.length ≤ t.length) →
      (∀ y ∈ its, bfree (labelOf y.type)) →
      List.Pairwise (fun x y => maskOf x ≠ maskOf y) its →
      bfree t → bfree S →
      unmaskAll (its.map fun it => (maskOf it, it.value))
        ((its.foldl maskStep ⟨t, s, ap⟩).text ++ S) = t ++ S := by
  induction its with
  | nil => intro t S s ap _ _ _ _ _ _ _ _; rfl
  | cons x rest ih =>
    intro t S s ap hsorted hdisj hne hvalid hlab hdist ht hS
    obtain ⟨hvx, hxb⟩ := hvalid x (List.mem_cons_self _ _)
    have hi : x.index ≤ t.length := by omega
    have hrest : ∀ y ∈ rest, y.index + y.value.length ≤ x.index :=
      desc_disjoint_bounds hsorted hdisj hne
    have htail := (List.pairwise_cons.mp hsorted).2
    have hdtail := (List.pairwise_cons.mp hdisj).2
    have hnetail : ∀ y ∈ rest, y.value ≠ [] := fun y hy => hne y (List.mem_cons_of_mem _ hy)
    have hlabtail : ∀ y ∈ rest, bfree (labelOf y.type) :=
      fun y hy => hlab y (List.mem_cons_of_mem _ hy)
    have hdisttail := (List.pairwise_cons.mp hdist).2
    have hstep : maskStep ⟨t, s, ap⟩ x =
        ⟨t.take x.index ++ maskOf x ++ t.drop (x.index + x.value.length),
         setEntry s (maskOf x) x.value, ap ++ [x]⟩ := by
      simp only [maskStep, maskOf, hvx]
      rfl
    simp only [List.foldl_cons, hstep]
    have hboundtail : ∀ y ∈ rest, y.index + y.value.length ≤ (t.take x.index).length := by
      intro y hy
      simp only [List.length_take]
      have := hrest y hy
      omega
    have hvalidtail : ∀ y ∈ rest,
        substringJS (t.take x.index) y.index (y.index + y.value.length) = y.value ∧
        y.index + y.value.length ≤ (t.take x.index).length := by
      intro y hy
      obtain ⟨hv, hb⟩ := hvalid y (List.mem_cons_of_mem _ hy)
      exact ⟨by rw [substringJS_take (hrest y hy) hi]; exact hv, hboundtail y hy⟩
    have hsplit := maskFold_text_append rest (t.take x.index)
      (maskOf x ++ t.drop (x.index + x.value.length))
      (setEntry s (maskOf x) x.value) (ap ++ [x]) htail hdtail hnetail hboundtail
    have hshape : t.take x.index ++ maskOf x ++ t.drop (x.index + x.value.length)
        = t.take x.index ++ (maskOf x ++ t.drop (x.index + x.value.length)) := by
      simp [List.append_assoc]
    rw [hshape, hsplit]
    -- the masked text so far:  Trest ++ maskOf x ++ (drop ++ S)
    simp only [List.map_cons, unmaskAll, List.foldl_cons]
    have hInter := maskFold_inter rest (t.take x.index)
      (setEntry s (maskOf x) x.value) (ap ++ [x])
      htail hdtail hnetail hvalidtail (bfree_take ht _)
    have hD : bfree (t.drop (x.index + x.value.length) ++ S) :=
      bfree_append (bfree_drop ht _) hS
    have hms : ∀ m' ∈ (rest.map maskOf).reverse,
        ∃ tg', m' = mkMask tg' ∧ bfree tg' ∧ tg' ≠ labelOf x.type := by
      intro m' hm'
      rw [List.mem_reverse] at hm'
      obtain ⟨y, hy, rfl⟩ := List.mem_map.mp hm'
      refine ⟨labelOf y.type, ?_, hlabtail y hy, ?_⟩
      · exact generateMask_mkMask y.type
      · intro hlabeq
        have : maskOf y = maskOf x := by
          unfold maskOf
          rw [generateMask_mkMask, generateMask_mkMask, hlabeq]
        exact ((List.pairwise_cons.mp hdist).1 y hy) this.symm
    have hocc : replaceAll (maskOf x) x.value
        (((rest.foldl maskStep
            ⟨t.take x.index, setEntry s (maskOf x) x.value, ap ++ [x]⟩).text
          ++ (maskOf x ++ t.drop (x.index + x.value.length))) ++ S)
        = (rest.foldl maskStep
            ⟨t.take x.index, setEntry s (maskOf x) x.value, ap ++ [x]⟩).text
          ++ x.value ++ (t.drop (x.index + x.value.length) ++ S) := by
      have hrw : ((rest.foldl maskStep
            ⟨t.take x.index, setEntry s (maskOf x) x.value, ap ++ [x]⟩).text
          ++ (maskOf x ++ t.drop (x.index + x.value.length))) ++ S
          = (rest.foldl maskStep
            ⟨t.take x.index, setEntry s (maskOf x) x.value, ap ++ [x]⟩).text
          ++ maskOf x ++ (t.drop (x.index + x.value.length) ++ S) := by
        simp [List.append_assoc]
      rw [hrw, show maskOf x = mkMask (labelOf x.type) from generateMask_mkMask x.type]
      exact occSkip (hlab x (List.mem_cons_self _ _)) hInter hms hD
    rw [hocc]
    have hfin := ih (t.take x.index)
      (x.value ++ (t.drop (x.index + x.value.length) ++ S))
      (setEntry s (maskOf x) x.value) (ap ++ [x])
      htail hdtail hnetail hvalidtail hlabtail hdisttail (bfree_take ht _)
      (bfree_append
        (by rw [← hvx]; exact bfree_substringJS ht _ _)
        hD)
    have hfin' := hfin
    simp only [unmaskAll] at hfin'
    rw [show (rest.foldl maskStep
          ⟨t.take x.index, setEntry s (maskOf x) x.value, ap ++ [x]⟩).text
        ++ x.value ++ (t.drop (x.index + x.value.length) ++ S)
        = (rest.foldl maskStep
          ⟨t.take x.index, setEntry s (maskOf x) x.value, ap ++ [x]⟩).text
        ++ (x.value ++ (t.drop (x.index + x.value.length) ++ S)) by
      simp [List.append_assoc]]
    rw [hfin']
    have hrecomb := substringJS_recomb hxb
    rw [hvx] at hrecomb
    rw [show t.take x.index ++ (x.value ++ (t.drop (x.index + x.value.length) ++ S))
        = (t.take x.index ++ x.value ++ t.drop (x.index + x.value.length)) ++ S by
      simp [List.append_assoc]]
    rw [hrecomb]

end PII

namespace PII

theorem det_valid {t : List Char} {it : Item} (h : IsRegexDetection t it) :
    substringJS t it.index (it.index + it.value.length) = it.value ∧
    it.index + it.value.length ≤ t.length := by
  obtain ⟨p, _, _, _, _, _, pre, post, heq, hidx⟩ := h
  have hlen : it.index + it.value.length ≤ t.length := by
    rw [heq, hidx]
    simp only [List.length_append]
    omega
  refine ⟨?_, hlen⟩
  rw [substringJS_of_le hlen, heq, hidx, List.append_assoc, List.drop_left,
    List.take_left]

theorem det_nonempty {t : List Char} {it : Item} (h : IsRegexDetection t it) :
    it.value ≠ [] := by
  obtain ⟨p, hp, _, _, _, hm, _⟩ := h
  have hall : PII_PATTERNS_ORDERED.all (fun p => decide (1 ≤ minLen p.2)) = true := by decide
  have h1 : 1 ≤ minLen p.2 := of_decide_eq_true (List.all_eq_true.mp hall p hp)
  have h2 := minLen_sound hm
  intro hnil
  rw [hnil] at h2
  simp only [List.length_nil] at h2
  omega

theorem det_label_bfree {t : List Char} {it : Item} (h : IsRegexDetection t it) :
    bfree (labelOf it.type) := by
  obtain ⟨p, hp, hty, _⟩ := h
  have hall : PII_PATTERNS_ORDERED.all
      (fun p => (labelOf p.1).all fun c => !(c == '[') && !(c == ']')) = true := by decide
  have h1 := List.all_eq_true.mp (List.all_eq_true.mp hall p hp)
  intro c hc
  rw [hty] at hc
  have := h1 c hc
  simp only [Bool.and_eq_true, Bool.not_eq_true', beq_eq_false_iff_ne] at this
  exact this

theorem dedupScan_sublist : ∀ (l kept : List Item), List.Sublist (dedupScan kept l) (kept ++ l) := by
  intro l
  induction l with
  | nil => intro kept; simp [dedupScan]
  | cons x xs ih =>
    intro kept
    simp only [dedupScan]
    split
    · exact (ih kept).trans
        (List.append_sublist_append_left kept |>.mpr (List.sublist_cons_self x xs))
    · have := ih (kept ++ [x])
      rw [List.append_assoc] at this
      simpa using this

theorem dedupItems_sublist (items : List Item) :
    List.Sublist (dedupItems items) (List.insertionSort leIdx items) := by
  simpa using dedupScan_sublist (List.insertionSort leIdx items) []

/-- C1 (amended): masking a bracket-free text with spans returned by
detection whose placeholders are pairwise distinct, then substituting each
MappingStore entry's original value back into its placeholder occurrences,
reconstructs the text exactly. -/
theorem mask_round_trip_restricted (t : List Char) (items : List Item)
    (hdet : ∀ it ∈ items, IsRegexDetection t it)
    (hdistinct : List.Pairwise (fun a b => generateMask a.type ≠ generateMask b.type) items)
    (ht : bfree t) :
    unmaskAll (maskDetectedPII t items []).2 (maskDetectedPII t items []).1 = t := by
  unfold maskDetectedPII maskDetectedPIISt
  by_cases hcase : t = [] ∨ items = []
  · rw [if_pos hcase]
    rfl
  · rw [if_neg hcase]
    have hperm1 : List.Perm (List.insertionSort leIdx items) items :=
      List.perm_insertionSort _ _
    have hdist1 : List.Pairwise (fun a b => maskOf a ≠ maskOf b)
        (List.insertionSort leIdx items) :=
      (hperm1.pairwise_iff fun h h2 => h h2.symm).mpr hdistinct
    have hdist2 : List.Pairwise (fun a b => maskOf a ≠ maskOf b) (dedupItems items) :=
      hdist1.sublist (dedupItems_sublist items)
    have hperm2 : List.Perm (List.insertionSort geIdx (dedupItems items)) (dedupItems items) :=
      List.perm_insertionSort _ _
    have hdist3 : List.Pairwise (fun a b => maskOf a ≠ maskOf b)
        (List.insertionSort geIdx (dedupItems items)) :=
      (hperm2.pairwise_iff fun h h2 => h h2.symm).mpr hdist2
    have hdisj : List.Pairwise (fun a b => ¬ overlapsP a b)
        (List.insertionSort geIdx (dedupItems items)) :=
      (hperm2.pairwise_iff fun h h2 => h (overlapsP_symm h2)).mpr (dedupItems_pairwise items)
    have hsorted : List.Pairwise geIdx (List.insertionSort geIdx (dedupItems items)) :=
      List.sorted_insertionSort geIdx (dedupItems items)
    have hmem : ∀ y ∈ List.insertionSort geIdx (dedupItems items), y ∈ items :=
      fun y hy => mem_of_mem_dedupItems (hperm2.mem_iff.mp hy)
    have hstore : (List.foldl maskStep ⟨t, [], []⟩
        (List.insertionSort geIdx (dedupItems items))).store =
        (List.insertionSort geIdx (dedupItems items)).map fun it => (maskOf it, it.value) := by
      rw [maskFold_store]
      exact setFold_shape _ [] (by intro y _ e he; cases he) hdist3
    have hmain := unmask_maskFold (List.insertionSort geIdx (dedupItems items)) t [] [] []
      hsorted hdisj
      (fun y hy => det_nonempty (hdet y (hmem y hy)))
      (fun y hy => det_valid (hdet y (hmem y hy)))
      (fun y hy => det_label_bfree (hdet y (hmem y hy)))
      hdist3 ht (by intro c hc; cases hc)
    show unmaskAll
        (List.foldl maskStep ⟨t, [], []⟩ (List.insertionSort geIdx (dedupItems items))).store
        (List.foldl maskStep ⟨t, [], []⟩ (List.insertionSort geIdx (dedupItems items))).text = t
    rw [hstore]
    simpa using hmain

end PII

namespace PII

theorem replaceAll_head_match {k v rest : List Char} (hk : k ≠ []) :
    replaceAll k v (k ++ rest) = v ++ replaceAll k v rest := by
  cases k with
  | nil => exact absurd rfl hk
  | cons c k' =>
    have hp2 : (c :: k').isPrefixOf (c :: (k' ++ rest)) = true :=
      isPrefixOf_append_self (c :: k') rest
    rw [List.cons_append, replaceAll_cons_pos ⟨hk, hp2⟩]
    congr 1
    congr 1
    simp [List.drop_left]

theorem replaceAll_self_eq {k v : List Char} (hk : k ≠ []) : replaceAll k v k = v := by
  have h := @replaceAll_head_match k v [] hk
  rw [List.append_nil, replaceAll_nil, List.append_nil] at h
  exact h

theorem mask_round_trip_restricted_witness :
    unmaskAll (maskDetectedPII "a@b.io".data [emailItemA] []).2
      (maskDetectedPII "a@b.io".data [emailItemA] []).1 = "a@b.io".data :=
  mask_round_trip_restricted "a@b.io".data [emailItemA]
    (fun it hit => by rw [List.mem_singleton.mp hit]; exact isDet_a)
    (List.pairwise_singleton _ _)
    (by unfold bfree; decide)

theorem mask_round_trip_cex :
    IsRegexDetection "a@b.io c@d.io".data emailItemA ∧
    IsRegexDetection "a@b.io c@d.io".data emailItemC ∧
    unmaskAll (maskDetectedPII "a@b.io c@d.io".data [emailItemA, emailItemC] []).2
        (maskDetectedPII "a@b.io c@d.io".data [emailItemA, emailItemC] []).1 ≠
      "a@b.io c@d.io".data := by
  refine ⟨isDet_pair_a, isDet_pair_c, ?_⟩
  have heval : maskDetectedPII "a@b.io c@d.io".data [emailItemA, emailItemC] [] =
      (mkMask "REDACTED_EMAIL".data ++ (' ' :: mkMask "REDACTED_EMAIL".data),
       [(mkMask "REDACTED_EMAIL".data, "a@b.io".data)]) := by decide
  rw [heval]
  have hpre : (mkMask "REDACTED_EMAIL".data).isPrefixOf
      (' ' :: mkMask "REDACTED_EMAIL".data) = false :=
    isPrefixOf_cons_false (by decide)
  have h1 : unmaskAll [(mkMask "REDACTED_EMAIL".data, "a@b.io".data)]
      (mkMask "REDACTED_EMAIL".data ++ (' ' :: mkMask "REDACTED_EMAIL".data)) =
      "a@b.io a@b.io".data := by
    show replaceAll (mkMask "REDACTED_EMAIL".data) "a@b.io".data
        (mkMask "REDACTED_EMAIL".data ++ (' ' :: mkMask "REDACTED_EMAIL".data)) =
      "a@b.io a@b.io".data
    rw [replaceAll_head_match (by simp [mkMask]),
      replaceAll_cons_neg (fun h => by rw [hpre] at h; exact absurd h.2 (by decide)),
      replaceAll_self_eq (by simp [mkMask])]
    decide
  rw [h1]
  decide

end PII
